import Mathlib

/-
Verification of the 'reduce' symmetry-reduction engine (adaptive
prefix-assignment symmetry reduction, Junttila-Karppa-Kaski-Kohonen).

This file gives a shallow embedding, in Lean 4, of the parts of the C
sources (reduce.c, graph.c) that the audited specification claims talk
about, together with theorems settling those claims.

Modelling conventions:
  * C int arrays become `List Nat` or `List Int`; reads `a[i]` become
    `List.getD a i 0` and writes become `List.set`.
  * The canonical labeler (nauty) is external; its outputs consumed by the
    code are passed as parameters: `orb` is the orbit array (`graph_orbits`,
    two vertices are in one orbit iff their `orb` entries agree), `gens` is
    the generator sequence yielded by `graph_aut_gen`, and `autIdx` is the
    sequence of stabilizer indices yielded by `graph_aut_idx` (up to its
    zero sentinel, which is dropped).
  * Fatal `ABORT`/`ERROR` exits are modelled by `Option`/dedicated result
    constructors; an infinite loop is modelled by a distinct constructor
    (see `TravResult.hang`).
  * Loops are embedded as folds or fuel-indexed recursion; fuel bounds are
    chosen so that fuel exhaustion coincides with a loop of the C program
    that cannot terminate.

All definitions are given first, all theorems afterwards.
-/

namespace Reduce

/-! ### `aut_order_trunc` (reduce.c).

The C function multiplies the stabilizer indices reported by
`graph_aut_idx` into a GMP integer (`mpz_mul_si` in a loop over the
sentinel-terminated index array) and then truncates:

    int aut_trunc = 999999999;
    if(mpz_cmp_si(aut_order, aut_trunc) < 0)
        aut_trunc = (int) mpz_get_si(aut_order);

`autIdx` below is the stabilizer index sequence without its 0 sentinel.
GMP arithmetic is exact, so the running product is a `Nat`. -/

def aut_order_mpz (autIdx : List Nat) : Nat :=
  autIdx.foldl (fun acc i => acc * i) 1

def aut_order_trunc (autIdx : List Nat) : Nat :=
  if aut_order_mpz autIdx < 999999999 then aut_order_mpz autIdx else 999999999

/-! ### Orbit cells (`graph_orbit_cells`, graph.c).

The C code builds `p = [0..n-1]`, sorts it by the orbit array with
`heapsort_int_indirect`, and then sorts each maximal run of equal orbit
values ascending with `heapsort_int`.  The net effect (unique, because the
composite key `(orb[v], v)` is a total order without ties) is `[0..n-1]`
sorted lexicographically by `(orb[v], v)`; we model it with insertion sort
on that key. -/

def cellLe (orb : List Nat) (a b : Nat) : Prop :=
  orb.getD a 0 < orb.getD b 0 ∨ (orb.getD a 0 = orb.getD b 0 ∧ a ≤ b)

instance cellLeDecidable (orb : List Nat) : DecidableRel (cellLe orb) := by
  intro a b
  unfold cellLe
  infer_instance

instance cellLeTotal (orb : List Nat) : IsTotal Nat (cellLe orb) := by
  constructor
  intro a b
  unfold cellLe
  rcases Nat.lt_trichotomy (orb.getD a 0) (orb.getD b 0) with h | h | h
  · exact Or.inl (Or.inl h)
  · rcases Nat.le_total a b with h' | h'
    · exact Or.inl (Or.inr ⟨h, h'⟩)
    · exact Or.inr (Or.inr ⟨h.symm, h'⟩)
  · exact Or.inr (Or.inl h)

instance cellLeTrans (orb : List Nat) : IsTrans Nat (cellLe orb) := by
  constructor
  intro a b c hab hbc
  unfold cellLe at *
  rcases hab with h1 | ⟨h1, h1'⟩
  · rcases hbc with h2 | ⟨h2, _⟩
    · exact Or.inl (Nat.lt_trans h1 h2)
    · exact Or.inl (h2 ▸ h1)
  · rcases hbc with h2 | ⟨h2, h2'⟩
    · exact Or.inl (h1 ▸ h2)
    · exact Or.inr ⟨h1.trans h2, Nat.le_trans h1' h2'⟩

def graph_orbit_cells (orb : List Nat) : List Nat :=
  List.insertionSort (cellLe orb) (List.range orb.length)

/-- Decomposition of the sorted vertex list into maximal runs of equal
orbit value; this is the `i`/`j` two-index grouping loop shared by
`orbit_min_ind`, `orbit_select` and `print_orbit_perms` in reduce.c.
The fuel argument only serves structural recursion; `s.length` units are
always enough because each step consumes at least the head. -/
def cellGroupsF (orb : List Nat) : Nat → List Nat → List (List Nat)
  | 0, _ => []
  | _, [] => []
  | fuel+1, x :: xs =>
    (x :: xs.takeWhile (fun y => orb.getD y 0 == orb.getD x 0)) ::
      cellGroupsF orb fuel (xs.dropWhile (fun y => orb.getD y 0 == orb.getD x 0))

def cellGroups (orb : List Nat) (s : List Nat) : List (List Nat) :=
  cellGroupsF orb s.length s

def orbit_cell_list (orb : List Nat) : List (List Nat) :=
  cellGroups orb (graph_orbit_cells orb)

/-! ### `orbit_min_ind` (reduce.c).

    static void orbit_min_ind(graph_t *g, int *relabel, int *ind)

walks the orbit cells; at the first position `i` of each cell it sets
`ind[relabel[p[i]]] = 1` (or `ind[p[i]] = 1` when `relabel == NULL`) and
skips the rest of the cell. -/

def nu_apply (relabel : Option (List Nat)) (x : Nat) : Nat :=
  match relabel with
  | some m => m.getD x 0
  | none => x

def orbit_min_ind (orb : List Nat) (relabel : Option (List Nat)) : List Nat :=
  (orbit_cell_list orb).foldl
    (fun ind cell => ind.set (nu_apply relabel (cell.headD 0)) 1)
    (List.replicate orb.length 0)

/-! ### Orbit traversals (`traversal_prepare`, reduce.c). -/

/-- Source: `graph_same_orbit(g, i, j)` returns 1 when `i == j` or when the
orbit array of the labeler assigns `i` and `j` the same value. -/
def graph_same_orbit (orb : List Nat) (i j : Nat) : Bool :=
  i == j || orb.getD i 0 == orb.getD j 0

/-- The `list` array of `traversal_prepare`: orbit elements of `root`
collected by the ascending scan `for(i = 0; i < n; i++)`. -/
def trav_list (orb : List Nat) (n root : Nat) : List Nat :=
  (List.range n).filter (fun i => graph_same_orbit orb i root)

/-- The `rootpos` variable of `traversal_prepare`: the position of the
root inside the orbit element list. -/
def trav_rootpos (orb : List Nat) (n root : Nat) : Nat :=
  List.indexOf root (trav_list orb n root)

/-- The `ind` array of `traversal_prepare` right after initialization:
position in `list` for orbit members, `-(n+1)` for non-members, and `-1`
(done) for the root.  The C code assigns the running position counter in
the same ascending scan that builds `list` and afterwards overwrites
`ind[root] = -1`; the map below is that net content. -/
def trav_init_ind (orb : List Nat) (n root : Nat) : List Int :=
  (List.range n).map (fun i =>
    if graph_same_orbit orb i root then
      (if i = root then (-1 : Int)
       else (List.indexOf i (trav_list orb n root) : Int))
    else -((n : Int) + 1))

/-- The traversal matrix right after initialization: the row at the root's
position holds the identity `t[rootpos][i] = i`; the other rows are
uninitialized in C and are modelled as zero rows (the algorithm never
reads a row before writing it: rows are read only at done positions). -/
def trav_init_t (n rootpos len : Nat) : List (List Nat) :=
  (List.range len).map (fun j =>
    if j = rootpos then List.range n else List.replicate n 0)

/-- One generator application: the inner `for(j = 0; j < len; j++)` loop of
the sweep.  For each position `j`, with `u = list[j]` (here
`lst.getD j 0`), `v = p[u]` and `q = ind[v]`, if `v` is an undone orbit
member (`ind[v] >= 0`) and `u` is done (`ind[u] < 0`), row `q` becomes
`p` composed with row `j` and `v` is marked done.  Later iterations of the
same loop see the updates, hence the fold threads the state. -/
def trav_apply_gen (n : Nat) (lst : List Nat) (p : List Nat)
    (st : List Int × List (List Nat)) : List Int × List (List Nat) :=
  (List.range lst.length).foldl
    (fun st j =>
      if 0 ≤ st.1.getD (p.getD (lst.getD j 0) 0) 0 ∧ st.1.getD (lst.getD j 0) 0 < 0 then
        (st.1.set (p.getD (lst.getD j 0) 0) (-1),
         st.2.set (st.1.getD (p.getD (lst.getD j 0) 0) 0).toNat
           ((List.range n).map (fun i => p.getD ((st.2.getD j []).getD i 0) 0)))
      else st)
    st

/-- One full pass of `while((p = graph_aut_gen(g)) != NULL)`: every
generator applied once, in the labeler's order. -/
def trav_sweep (n : Nat) (lst : List Nat) (gens : List (List Nat))
    (st : List Int × List (List Nat)) : List Int × List (List Nat) :=
  gens.foldl (fun st p => trav_apply_gen n lst p st) st

/-- The `done` test at the top of the outer `while(1)` loop. -/
def trav_done (lst : List Nat) (ind : List Int) : Bool :=
  lst.all (fun u => ind.getD u 0 < 0)

/-- The outer `while(1)` loop.  The C loop terminates exactly when the done
set reaches the whole orbit; a sweep that marks nothing new leaves the
state unchanged, and from then on the C loop spins forever, which `none`
models.  Each productive sweep marks at least one new element, so fuel
`lst.length` is enough to reach either completion or a fixed point. -/
def trav_loop (n : Nat) (lst : List Nat) (gens : List (List Nat)) :
    Nat → List Int × List (List Nat) → Option (List Int × List (List Nat))
  | 0, st => if trav_done lst st.1 then some st else none
  | fuel+1, st =>
    if trav_done lst st.1 then some st
    else
      if trav_sweep n lst gens st = st then none
      else trav_loop n lst gens fuel (trav_sweep n lst gens st)

/-- Result of `traversal_prepare`: `ok` carries the traversal matrix and
the orbit element list; `fatal` models the `ABORT` exits (`"bad root"`,
`"bad traversal"`); `hang` models an infinite loop of the builder. -/
inductive TravResult
  | ok (t : List (List Nat)) (lst : List Nat)
  | fatal
  | hang
deriving DecidableEq

def traversal_prepare (orb : List Nat) (gens : List (List Nat))
    (n root : Nat) : TravResult :=
  if n ≤ root then TravResult.fatal
  else
    match trav_loop n (trav_list orb n root) gens (trav_list orb n root).length
        (trav_init_ind orb n root,
         trav_init_t n (trav_rootpos orb n root) (trav_list orb n root).length) with
    | none => TravResult.hang
    | some st =>
      if (List.range (trav_list orb n root).length).all
          (fun j => (st.2.getD j []).getD root 0 == (trav_list orb n root).getD j 0) then
        TravResult.ok st.2 (trav_list orb n root)
      else TravResult.fatal

/-- Products of labeler generators (with the identity), the form in which
`traversal_prepare` builds every traversal row: row := generator ∘ row. -/
inductive ProdGens (gens : List (List Nat)) (n : Nat) : List Nat → Prop
  | id : ProdGens gens n (List.range n)
  | comp (q p : List Nat) : ProdGens gens n q → p ∈ gens →
      ProdGens gens n ((List.range n).map (fun i => p.getD (q.getD i 0) 0))

/-- Vertices reachable from the root by repeatedly applying generators;
"the orbit can be covered by products of the generator stream" means every
orbit element is `Reach`able. -/
inductive Reach (gens : List (List Nat)) (root : Nat) : Nat → Prop
  | refl : Reach gens root root
  | step (u : Nat) (p : List Nat) : Reach gens root u → p ∈ gens →
      Reach gens root (p.getD u 0)

/-- Contract of the external labeler (spec section 4.1): a generator is a
permutation of the vertex set `0..n-1`. -/
def isPerm (n : Nat) (p : List Nat) : Prop :=
  p.length = n ∧ (∀ i, i < n → p.getD i 0 < n) ∧
    (∀ i, i < n → ∀ j, j < n → p.getD i 0 = p.getD j 0 → i = j)

/-! ### The seed-minimum scans of the search engine.

`reducer_get_prefix_assignment` locates frame variables by scanning
traversal positions in increasing order and taking the first whose image
of the prefix vertex has its seed-minimum bit set; the same scan shape is
used to seed level 0, to seed an expanded child frame, and (starting after
the current position) to advance to the next variable of a level. -/
def scan_from (trav : List (List Nat)) (root : Nat) (seedMin : List Nat)
    (s : Nat) : Option Nat :=
  ((trav.drop s).map (fun tau => tau.getD root 0)).find?
    (fun v => decide (seedMin.getD v 0 ≠ 0))

/-! ### The accepted-candidate step of `reducer_get_prefix_assignment`.

This models the accepted branch of reduce.c (after the `stat_can`
increment, which is not part of the claims): normalization of the frame
into scratch, the |Aut|
truncation, the emission test `size == r->target_length || aut <= r->t`,
the conversion `norm_vals[i] = r->val[norm_vals[i]]` plus
`r->stat_out[lvl]++` on emission, and otherwise the construction of the
expanded child frame (prefix expansion is modelled by passing the
already-built next-level traversal, next prefix vertex and next seed-min
indicator as parameters).  `none` models the `ABORT("no minimum found in
extending orbit")` exit. -/
inductive AcceptedOutcome
  | emit (record : List Nat)
  | expand (exp_vars exp_vals : List Nat)
deriving DecidableEq

def accepted_step (size K : Nat) (t : Int) (val autIdx nu vars vals : List Nat)
    (current_idx current_val : Nat) (trav_next : List (List Nat))
    (pfx_next : Nat) (seed_min_next : List Nat) (stat_out : Nat) :
    Option (AcceptedOutcome × Nat) :=
  let norm_vars := (List.range size).map (fun i => nu.getD (vars.getD i 0) 0)
  let norm_vals := (List.range size).map
    (fun i => if i = current_idx then current_val else vals.getD i 0)
  let aut := aut_order_trunc autIdx
  if size = K ∨ (aut : Int) ≤ t then
    some (AcceptedOutcome.emit
      (size :: (norm_vars ++ norm_vals.map (fun w => val.getD w 0) ++ [aut])),
      stat_out + 1)
  else
    match scan_from trav_next pfx_next seed_min_next 0 with
    | some v => some (AcceptedOutcome.expand (norm_vars ++ [v]) (norm_vals ++ [0]), stat_out)
    | none => none

/-! ### `orbit_select` (reduce.c). -/

/-- The `q` indicator at the start of `orbit_select`: 1 on variable
vertices (`m`), overwritten back to 0 on prefix vertices (`f`). -/
def sel_q_init (n : Nat) (m f : List Nat) : List Nat :=
  f.foldl (fun q u => q.set u 0)
    (m.foldl (fun q u => q.set u 1) (List.replicate n 0))

/-- The cycle-tracing do-while: starting at `z`, repeatedly set
`q[w] = 1`, step `w = a[w]`, count the length, and stop when the walk
returns to `z`.  Fuel bounds the walk; a permutation returns within `n`
steps, so fuel `n + 1` is never exhausted on contract-conforming input. -/
def cycle_trace (a : List Nat) (z : Nat) :
    Nat → Nat → Nat → List Nat → List Nat × Nat
  | 0, _, len, q => (q, len)
  | fuel+1, w, len, q =>
    if a.getD w 0 = z then (q.set w 1, len + 1)
    else cycle_trace a z fuel (a.getD w 0) (len + 1) (q.set w 1)

/-- Processing of one generator `a` at one orbit cell: mark the cell with
2, then walk the variable list `m`; every variable vertex still marked 2
has its `a`-cycle traced (resetting marks to 1), adding the cycle length
to `num_fixed` for 1-cycles and to `num_moved` for longer cycles. -/
def gen_count (n : Nat) (a m : List Nat) (cell : List Nat) (q0 : List Nat) :
    List Nat × Nat × Nat :=
  m.foldl
    (fun st z =>
      if st.1.getD z 0 = 2 then
        ((cycle_trace a z (n + 1) z 0 st.1).1,
         (if (cycle_trace a z (n + 1) z 0 st.1).2 = 1 then
            st.2.1 + (cycle_trace a z (n + 1) z 0 st.1).2
          else st.2.1),
         (if 2 ≤ (cycle_trace a z (n + 1) z 0 st.1).2 then
            st.2.2 + (cycle_trace a z (n + 1) z 0 st.1).2
          else st.2.2))
      else st)
    (cell.foldl (fun q w => q.set w 2) q0, 0, 0)

/-- The running state of the cell scan of `orbit_select`. -/
structure SelState where
  q : List Nat
  max_length : Int
  max_p : Nat
  have_good : Bool
  have_first : Bool
  first_eligible : Nat

/-- Source `if(!have_good && j-i >= max_length)`: the running-maximum
update that runs once per generator while no good orbit has been seen. -/
def sel_upd1 (cell : List Nat) (s : SelState) : SelState :=
  if s.have_good = false ∧ s.max_length ≤ (cell.length : Int) then
    { s with max_length := (cell.length : Int), max_p := cell.headD 0 }
  else s

/-- Source `if(!have_good || max_length < j-i)`: the good-orbit update
fired when a generator has both fixed and moved variable points. -/
def sel_upd2 (cell : List Nat) (s : SelState) : SelState :=
  if s.have_good = false ∨ s.max_length < (cell.length : Int) then
    { s with max_length := (cell.length : Int), max_p := cell.headD 0,
             have_good := true }
  else s

/-- Processing of one generator at one eligible orbit cell: the marks are
updated by the cycle walk, the no-good running maximum is refreshed, and
the good-orbit update fires when the generator has both a fixed and a
moved variable point in the cell. -/
def gen_step (n : Nat) (m cell : List Nat) (s : SelState) (a : List Nat) :
    SelState :=
  if 0 < (gen_count n a m cell s.q).2.1 ∧ 0 < (gen_count n a m cell s.q).2.2 then
    sel_upd2 cell (sel_upd1 cell { s with q := (gen_count n a m cell s.q).1 })
  else
    sel_upd1 cell { s with q := (gen_count n a m cell s.q).1 }

/-- Processing of one orbit cell inside `orbit_select`: cells whose head
`p[i]` has `q[p[i]] > 0` are eligible; the first eligible head is
remembered; for each generator the fixed/moved counts are formed and the
running maximum is updated — unconditionally on `j-i >= max_length` while
no good orbit has been seen, and on `j-i > max_length` (or on the first
good orbit) when the generator has both fixed and moved points. -/
def process_cell (n : Nat) (gens : List (List Nat)) (m : List Nat)
    (st : SelState) (cell : List Nat) : SelState :=
  if 0 < st.q.getD (cell.headD 0) 0 then
    gens.foldl (gen_step n m cell)
      (if st.have_first = true then st
       else { st with have_first := true, first_eligible := cell.headD 0 })
  else st

/-- Source `orbit_select(g, l, m, k, f, t)`: when the previous-level traversal
indicator `t` is supplied, the first vertex that is an unused variable
vertex and lies in the previous traversal is returned immediately;
otherwise the orbit cells are scanned, and the final answer is `max_p`
when the best length reaches 2, else the first eligible head.  `none`
models `ABORT("no eligible orbit")`. -/
def orbit_select (orb : List Nat) (gens : List (List Nat)) (n : Nat)
    (m f : List Nat) (t_ind : Option (List Nat)) : Option Nat :=
  let q0 := sel_q_init n m f
  let fromPrev : Option Nat :=
    match t_ind with
    | none => none
    | some tv =>
      (List.range n).find? (fun i => decide (0 < q0.getD i 0 ∧ 0 < tv.getD i 0))
  match fromPrev with
  | some i => some i
  | none =>
    let st := (orbit_cell_list orb).foldl (process_cell n gens m)
      ⟨q0, -1, 0, false, false, 0⟩
    if st.have_first then
      (if (2 : Int) ≤ st.max_length then some st.max_p
       else some st.first_eligible)
    else none

/-- The selection rule claimed by the specification for the no-good-orbit
case: the lowest-indexed variable vertex that is not yet in the prefix. -/
def lowest_unused (n : Nat) (m f : List Nat) : Option Nat :=
  (List.range n).find? (fun i => decide (i ∈ m ∧ i ∉ f))

/-- Modelled from the spec (section 4.4): an orbit is *good* when it holds
an unused variable vertex and some generator has both a fixed point and a
moved point among the variable vertices of that orbit. -/
def good_orbit_exists (orb : List Nat) (gens : List (List Nat))
    (m f : List Nat) : Prop :=
  ∃ cell ∈ orbit_cell_list orb,
    (∃ u ∈ cell, u ∈ m ∧ u ∉ f) ∧
    ∃ a ∈ gens,
      (∃ z ∈ cell, z ∈ m ∧ a.getD z 0 = z) ∧
      (∃ z ∈ cell, z ∈ m ∧ a.getD z 0 ≠ z)

/-- Modelled from the spec (labeler contract, section 4.1): a generator is
an automorphism, so it maps every vertex inside its own orbit. -/
def orbPreserving (orb : List Nat) (n : Nat) (a : List Nat) : Prop :=
  ∀ w, w < n → orb.getD (a.getD w 0) 0 = orb.getD w 0

/-- Net effect of the `!have_good && j-i >= max_length` running-maximum
update of `orbit_select` over the cell scan when no good orbit is ever
seen and at least one generator exists: every eligible cell whose length
reaches the running maximum overwrites `(max_length, max_p)` with its
length and head. -/
def fallback_fold (cells : List (List Nat)) (elig : Nat → Bool)
    (s0 : Int × Nat) : Int × Nat :=
  cells.foldl
    (fun s c =>
      if elig (c.headD 0) = true ∧ s.1 ≤ (c.length : Int) then
        ((c.length : Int), c.headD 0)
      else s)
    s0

/-! ### Command-line argument parsing (reduce.c).

Strings are modelled as `List Char` (`argv[i][j]` is list indexing).
`sscanf("%ld")`/`sscanf("%d")` on a pure optionally-signed decimal token
is modelled by `parse_int`; the concrete command lines examined by the
claims contain only such tokens. -/

def parse_nat_digits (s : List Char) : Option Nat :=
  if s = [] then none
  else if s.all Char.isDigit then
    some (s.foldl (fun acc c => acc * 10 + (c.toNat - '0'.toNat)) 0)
  else none

def parse_int (s : List Char) : Option Int :=
  match s with
  | '-' :: rest => (parse_nat_digits rest).map (fun v => -(v : Int))
  | _ => (parse_nat_digits s).map (fun v => (v : Int))

inductive ArgKind
  | noParam
  | longParam
  | intArrayParam
  | stringParam
deriving DecidableEq

inductive ArgParam
  | noP
  | longP (v : Int)
  | strP (s : List Char)
  | intArrP (a : List Int)
deriving DecidableEq

/-- The `argdefs` table of reduce.c (without the sentinel row). -/
def argdefs : List (Char × List Char × ArgKind) :=
  [('h', "help".toList,          ArgKind.noParam),
   ('u', "usage".toList,         ArgKind.noParam),
   ('v', "verbose".toList,       ArgKind.noParam),
   ('g', "graph".toList,         ArgKind.noParam),
   ('n', "no-cnf".toList,        ArgKind.noParam),
   ('s', "symmetry-only".toList, ArgKind.noParam),
   ('i', "incremental".toList,   ArgKind.noParam),
   ('t', "threshold".toList,     ArgKind.longParam),
   ('l', "length".toList,        ArgKind.longParam),
   ('p', "prefix".toList,        ArgKind.intArrayParam),
   ('f', "file".toList,          ArgKind.stringParam),
   ('o', "output".toList,        ArgKind.stringParam)]

def starts_dash (s : List Char) : Bool :=
  s.headD ' ' == '-'

/-- Source `arg_get_long`: consume `argv[i+1]` as a long integer; errors (missing
or unparsable parameter) are `none`.  Returns the new loop index `i+1`. -/
def arg_get_long (argv : List (List Char)) (i : Nat) : Option (ArgParam × Nat) :=
  match argv[i+1]? with
  | none => none
  | some s =>
    match parse_int s with
    | none => none
    | some v => some (ArgParam.longP v, i + 1)

/-- Source `arg_get_string`: consume `argv[i+1]` as a string parameter; a missing
parameter or one starting with '-' is an error. -/
def arg_get_string (argv : List (List Char)) (i : Nat) : Option (ArgParam × Nat) :=
  match argv[i+1]? with
  | none => none
  | some s => if starts_dash s then none else some (ArgParam.strP s, i + 1)

/-- Source `arg_get_int_array`: scan forward from `argv[i+1]` until the argument
list ends or an argument starting with '-' appears; parse every scanned
token as an integer, storing the count followed by the values minus one
(the 1-indexed command-line vertices become 0-indexed). Returns `j-1`
exactly as the C function does. -/
def arg_get_int_array (argv : List (List Char)) (i : Nat) : Option (ArgParam × Nat) :=
  let tokens := (argv.drop (i+1)).takeWhile (fun s => !starts_dash s)
  let len := tokens.length
  match tokens.mapM parse_int with
  | none => none
  | some vs =>
    some (ArgParam.intArrP ((len : Int) :: vs.map (fun v => v - 1)), i + len)

/-- Character loop of a short-form argument cluster `-abc`.  A character
taking a parameter must end its cluster (the first pass of `arg_parse`
errors out otherwise), consumes its parameter, and stops the cluster.
Unrecognized characters and duplicate arguments are errors. -/
def short_loop (argv : List (List Char)) :
    Nat → List Char → List (List Char × ArgParam) →
      Option (Nat × List (List Char × ArgParam))
  | i, [], acc => some (i, acc)
  | i, c :: cs, acc =>
    match argdefs.find? (fun x => x.1 == c) with
    | none => none
    | some d =>
      if acc.any (fun e => e.1 == d.2.1) then none
      else
        match d.2.2 with
        | ArgKind.noParam => short_loop argv i cs (acc ++ [(d.2.1, ArgParam.noP)])
        | ArgKind.longParam =>
          if cs = [] then
            (arg_get_long argv i).map (fun r => (r.2, acc ++ [(d.2.1, r.1)]))
          else none
        | ArgKind.intArrayParam =>
          if cs = [] then
            (arg_get_int_array argv i).map (fun r => (r.2, acc ++ [(d.2.1, r.1)]))
          else none
        | ArgKind.stringParam =>
          if cs = [] then
            (arg_get_string argv i).map (fun r => (r.2, acc ++ [(d.2.1, r.1)]))
          else none

/-- The parse loop of `arg_parse` over `argv[1..]`.  Note the long-form
branch: its `ARG_INT_ARRAY_PARAM` case calls `arg_get_long`, exactly as
the C source does.  Arguments that do not start with '-' where an argument
is expected are the `ERROR("bad argument ...")` exit, modelled by `none`.
Fuel `argv.length + 1` suffices since every step advances the index. -/
def arg_parse_loop (argv : List (List Char)) :
    Nat → Nat → List (List Char × ArgParam) →
      Option (List (List Char × ArgParam))
  | 0, _, _ => none
  | fuel+1, i, acc =>
    match argv[i]? with
    | none => some acc
    | some s =>
      match s with
      | '-' :: '-' :: d =>
        (match argdefs.find? (fun x => x.2.1 == d) with
         | none => none
         | some df =>
           if acc.any (fun e => e.1 == df.2.1) then none
           else
             match df.2.2 with
             | ArgKind.noParam =>
               arg_parse_loop argv fuel (i+1) (acc ++ [(df.2.1, ArgParam.noP)])
             | ArgKind.longParam =>
               match arg_get_long argv i with
               | none => none
               | some r => arg_parse_loop argv fuel (r.2+1) (acc ++ [(df.2.1, r.1)])
             | ArgKind.intArrayParam =>
               match arg_get_long argv i with
               | none => none
               | some r => arg_parse_loop argv fuel (r.2+1) (acc ++ [(df.2.1, r.1)])
             | ArgKind.stringParam =>
               match arg_get_string argv i with
               | none => none
               | some r => arg_parse_loop argv fuel (r.2+1) (acc ++ [(df.2.1, r.1)]))
      | '-' :: c :: cs =>
        (match short_loop argv i (c :: cs) acc with
         | none => none
         | some r => arg_parse_loop argv fuel (r.1+1) r.2)
      | ['-'] => arg_parse_loop argv fuel (i+1) acc
      | _ => none

def arg_parse (argv : List (List Char)) : Option (List (List Char × ArgParam)) :=
  arg_parse_loop argv (argv.length + 1) 1 []

/-! ### Proof infrastructure definitions. -/

/-- Heads (first elements) of the orbit cells of a sorted vertex list. -/
def cgHeads (orb : List Nat) (s : List Nat) : List Nat :=
  (cellGroups orb s).map (fun c => c.headD 0)

/-- Loop invariant of `traversal_prepare`: the lengths of the state are
stable, the root stays done with the identity row at its position, the
`ind` entry of the `j`-th orbit element is its position `j` or the done
mark `-1`, non-members keep `-(n+1)`, and every done position holds a row
that is a product of generators carrying the root to that orbit
element. -/
def TravInv (orb : List Nat) (gens : List (List Nat)) (n root : Nat)
    (st : List Int × List (List Nat)) : Prop :=
  st.1.length = n ∧
  st.2.length = (trav_list orb n root).length ∧
  st.1.getD root 0 = -1 ∧
  st.2.getD (trav_rootpos orb n root) [] = List.range n ∧
  (∀ j, j < (trav_list orb n root).length →
    (st.1.getD ((trav_list orb n root).getD j 0) 0 = (j : Int) ∨
     st.1.getD ((trav_list orb n root).getD j 0) 0 = -1)) ∧
  (∀ v, v < n → v ∉ trav_list orb n root → st.1.getD v 0 = -((n : Int) + 1)) ∧
  (∀ j, j < (trav_list orb n root).length →
    st.1.getD ((trav_list orb n root).getD j 0) 0 = -1 →
    ProdGens gens n (st.2.getD j []) ∧
    (st.2.getD j []).getD root 0 = (trav_list orb n root).getD j 0)

/-- Reachability invariant of `traversal_prepare`: every orbit element
marked done is reachable from the root by products of generators. -/
def ReachInv (gens : List (List Nat)) (root : Nat) (lst : List Nat)
    (ind : List Int) : Prop :=
  ∀ u, u ∈ lst → ind.getD u 0 < 0 → Reach gens root u

instance isPermDecidable (n : Nat) (p : List Nat) : Decidable (isPerm n p) := by
  unfold isPerm
  infer_instance

instance goodOrbitDecidable (orb : List Nat) (gens : List (List Nat))
    (m f : List Nat) : Decidable (good_orbit_exists orb gens m f) := by
  unfold good_orbit_exists
  infer_instance

instance orbPreservingDecidable (orb : List Nat) (n : Nat) (a : List Nat) :
    Decidable (orbPreserving orb n a) := by
  unfold orbPreserving
  infer_instance

/-! ## Theorems -/

/-! ### Generic list-access helper lemmas. -/

theorem getD_set_self {α : Type} [Inhabited α] (l : List α) (i : Nat) (x d : α)
    (h : i < l.length) : (l.set i x).getD i d = x := by
  simp [List.getD_eq_getElem?_getD, List.getElem?_set_self, h]

theorem getD_set_ne {α : Type} [Inhabited α] (l : List α) (i j : Nat) (x d : α)
    (h : i ≠ j) : (l.set i x).getD j d = l.getD j d := by
  simp [List.getD_eq_getElem?_getD, List.getElem?_set_ne, h]

theorem getD_map_range {α : Type} [Inhabited α] (f : Nat → α) (n i : Nat) (d : α)
    (h : i < n) : (((List.range n).map f).getD i d) = f i := by
  simp [List.getD_eq_getElem?_getD, List.getElem?_map, List.getElem?_range, h]

theorem getD_replicate {α : Type} [Inhabited α] (n i : Nat) (x d : α)
    (h : i < n) : ((List.replicate n x).getD i d) = x := by
  simp [List.getD_eq_getElem?_getD, List.getElem?_replicate, h]

theorem getD_eq_getElem {α : Type} [Inhabited α] (l : List α) (i : Nat) (d : α)
    (h : i < l.length) : l.getD i d = l[i] := by
  simp [List.getD_eq_getElem?_getD, List.getElem?_eq_getElem, h]

/-- Folding a predicate-preserving step preserves the predicate. -/
theorem foldl_preserve {α β : Type} (P : β → Prop) (f : β → α → β) (l : List α) (b : β)
    (hstep : ∀ b a, a ∈ l → P b → P (f b a)) (hb : P b) : P (l.foldl f b) := by
  induction l generalizing b with
  | nil => exact hb
  | cons a l ih =>
      exact ih (f b a) (fun b' a' ha' hb' => hstep b' a' (List.mem_cons_of_mem a ha') hb')
        (hstep b a (List.mem_cons_self a l) hb)

/-- With an empty generator stream, only the root is reachable. -/
theorem reach_nil (root u : Nat) (h : Reach [] root u) : u = root := by
  induction h with
  | refl => rfl
  | step u' p _ hp _ => exact absurd hp (List.not_mem_nil p)

/-! ### Claim C2: the |Aut| truncation value. -/

/-- Claim C2, as stated, is false: the code caps the |Aut| value at
999999999, not at 2^31 - 1 = 2147483647.  On the stabilizer index
sequence [1000000000] the product is 1000000000, the claimed value
min(|Aut|, 2^31 - 1) is 1000000000, but `aut_order_trunc` returns
999999999. -/
theorem claim_c2_counterexample :
    aut_order_trunc [1000000000] = 999999999 ∧
    min (aut_order_mpz [1000000000]) (2 ^ 31 - 1) = 1000000000 ∧
    (999999999 : Nat) ≠ 1000000000 := by
  refine ⟨by decide, by decide, by decide⟩

/-- Claim C2 (amended): the |Aut| value stored in the trailing field of an
emitted record equals min(|Aut(H)|, 999999999), where |Aut(H)| is the
product of the stabilizer indices of H. -/
theorem claim_c2_amended (autIdx : List Nat) :
    aut_order_trunc autIdx = min (aut_order_mpz autIdx) 999999999 := by
  unfold aut_order_trunc
  split <;> omega

/-! ### Claim C9: short/long command-line forms of the prefix option. -/

/-- Claim C9 evaluated at the failing input: `-p 1 2` stores the integer
array (length 2, vertices 0 and 1 after the 1-to-0 index shift), while
`--prefix 1 2` dispatches to the long-integer parser (the
`ARG_INT_ARRAY_PARAM` case of the long-form switch calls `arg_get_long`),
swallows only the token `1`, and then fails on the bare token `2` with
the `bad argument` error; `--prefix 1` alone stores a long instead of an
array. -/
theorem claim_c9_divergence :
    arg_parse ["reduce".toList, "-p".toList, "1".toList, "2".toList] =
      some [("prefix".toList, ArgParam.intArrP [2, 0, 1])] ∧
    arg_parse ["reduce".toList, "--prefix".toList, "1".toList, "2".toList] = none ∧
    arg_parse ["reduce".toList, "--prefix".toList, "1".toList] =
      some [("prefix".toList, ArgParam.longP 1)] ∧
    ArgParam.longP 1 ≠ ArgParam.intArrP [1, 0] := by
  refine ⟨by decide, by decide, by decide, by decide⟩

/-! ### Claim C3: counterexample to the orbit-selector fallback. -/

/-- Claim C3, as stated, is false.  Take the 3-vertex graph whose labeler
reports orbits {0} and {1, 2} with the single generator (1 2), all three
vertices variable vertices, and an empty prefix.  No orbit is good: the
generator has no moved variable point in {0} and no fixed variable point
in {1, 2}.  The claim demands the lowest-indexed unused variable vertex,
which is 0, but `orbit_select` returns 1 (the head of the last-scanned
eligible orbit of maximal length, kept by the `j-i >= max_length` update
that runs while no good orbit has been seen, and returned because that
length is at least 2). -/
theorem claim_c3_counterexample :
    ¬ good_orbit_exists [0, 1, 1] [[0, 2, 1]] [0, 1, 2] [] ∧
    lowest_unused 3 [0, 1, 2] [] = some 0 ∧
    orbit_select [0, 1, 1] [[0, 2, 1]] 3 [0, 1, 2] [] none = some 1 ∧
    (1 : Nat) ≠ 0 := by
  refine ⟨by decide, by decide, by decide, by decide⟩

/-! ### Claim C4: counterexample to the traversal-builder failure mode. -/

/-- Claim C4, as stated, is false.  On a 2-vertex graph whose labeler
reports {0, 1} as one orbit but yields an empty generator stream (a
contract violation: the orbit of root 0 cannot be covered), the claim
demands that `traversal_prepare` terminate by aborting, but the builder's
outer `while(1)` loop never reaches the done state and never aborts: it
loops forever, modelled by `TravResult.hang`. -/
theorem claim_c4_counterexample :
    (1 ∈ trav_list [0, 0] 2 0 ∧ ¬ Reach [] 0 1) ∧
    traversal_prepare [0, 0] [] 2 0 = TravResult.hang ∧
    TravResult.hang ≠ TravResult.fatal := by
  refine ⟨⟨by decide, ?_⟩, by decide, by decide⟩
  intro h
  exact absurd (reach_nil 0 1 h) (by decide)

/-! ### Orbit cells: sortedness and the head-is-minimum property. -/

theorem orbit_cells_sorted (orb : List Nat) :
    List.Sorted (cellLe orb) (graph_orbit_cells orb) :=
  List.sorted_insertionSort (cellLe orb) (List.range orb.length)

theorem orbit_cells_perm (orb : List Nat) :
    List.Perm (graph_orbit_cells orb) (List.range orb.length) :=
  List.perm_insertionSort (cellLe orb) (List.range orb.length)

theorem mem_orbit_cells (orb : List Nat) (u : Nat) :
    u ∈ graph_orbit_cells orb ↔ u < orb.length := by
  rw [(orbit_cells_perm orb).mem_iff, List.mem_range]

/-- After the initial equal-orbit run of a sorted list is dropped, no
remaining element has the head's orbit value. -/
theorem dropWhile_orb_ne (orb : List Nat) (x : Nat) :
    ∀ xs : List Nat, List.Sorted (cellLe orb) xs → (∀ b ∈ xs, cellLe orb x b) →
    ∀ w ∈ xs.dropWhile (fun y => orb.getD y 0 == orb.getD x 0),
      orb.getD w 0 ≠ orb.getD x 0 := by
  intro xs
  induction xs with
  | nil => simp
  | cons y ys ih =>
    intro hsort hx w hw
    rw [List.dropWhile_cons] at hw
    by_cases hp : orb.getD y 0 = orb.getD x 0
    · simp only [hp, beq_self_eq_true, if_true] at hw
      exact ih (List.sorted_cons.1 hsort).2
        (fun b hb => hx b (List.mem_cons_of_mem y hb)) w hw
    · simp only [beq_iff_eq, hp, if_false] at hw
      rcases List.mem_cons.1 hw with rfl | hw'
      · exact hp
      · intro hww
        have hyw : cellLe orb y w := (List.sorted_cons.1 hsort).1 w hw'
        have hxy : cellLe orb x y := hx y (List.mem_cons_self y ys)
        rcases hyw with h1 | ⟨h1, _⟩
        · rcases hxy with h2 | ⟨h2, _⟩
          · omega
          · exact hp h2.symm
        · exact hp (h1.trans hww)

/-- Heads of the cell decomposition of a sorted list are exactly the
minimum-indexed elements of their orbit classes within the list. -/
theorem cgHeadsF_spec (orb : List Nat) :
    ∀ fuel : Nat, ∀ s : List Nat, s.length ≤ fuel →
    List.Sorted (cellLe orb) s →
    ∀ u, u ∈ (cellGroupsF orb fuel s).map (fun c => c.headD 0) ↔
      (u ∈ s ∧ ∀ w, w ∈ s → orb.getD w 0 = orb.getD u 0 → u ≤ w) := by
  intro fuel
  induction fuel with
  | zero =>
    intro s hlen _ u
    have : s = [] := List.length_eq_zero.1 (Nat.le_zero.1 hlen)
    subst this
    simp [cellGroupsF]
  | succ fuel ih =>
    intro s hlen hsort u
    match s with
    | [] => simp [cellGroupsF]
    | x :: xs =>
      have hx : ∀ b ∈ xs, cellLe orb x b := (List.sorted_cons.1 hsort).1
      have hxs : List.Sorted (cellLe orb) xs := (List.sorted_cons.1 hsort).2
      have hsplit : xs.takeWhile (fun y => orb.getD y 0 == orb.getD x 0) ++
          xs.dropWhile (fun y => orb.getD y 0 == orb.getD x 0) = xs :=
        List.takeWhile_append_dropWhile _ xs
      have htake : ∀ w ∈ xs.takeWhile (fun y => orb.getD y 0 == orb.getD x 0),
          orb.getD w 0 = orb.getD x 0 := by
        intro w hw
        simpa [beq_iff_eq] using List.mem_takeWhile_imp hw
      have hdrop : ∀ w ∈ xs.dropWhile (fun y => orb.getD y 0 == orb.getD x 0),
          orb.getD w 0 ≠ orb.getD x 0 := dropWhile_orb_ne orb x xs hxs hx
      have hdsort : List.Sorted (cellLe orb)
          (xs.dropWhile (fun y => orb.getD y 0 == orb.getD x 0)) :=
        List.Pairwise.sublist (List.dropWhile_sublist _) hxs
      have hdlen : (xs.dropWhile (fun y => orb.getD y 0 == orb.getD x 0)).length ≤ fuel := by
        have h1 := (List.dropWhile_sublist
          (fun y => orb.getD y 0 == orb.getD x 0) (l := xs)).length_le
        have h2 : xs.length ≤ fuel := by
          simpa using Nat.le_of_succ_le_succ (by simpa using hlen)
        omega
      have hmemxs : ∀ w, w ∈ xs ↔
          (w ∈ xs.takeWhile (fun y => orb.getD y 0 == orb.getD x 0) ∨
           w ∈ xs.dropWhile (fun y => orb.getD y 0 == orb.getD x 0)) := by
        intro w
        constructor
        · intro hw
          rw [← hsplit] at hw
          exact List.mem_append.1 hw
        · intro hw
          rw [← hsplit]
          exact List.mem_append.2 hw
      have ihd := ih (xs.dropWhile (fun y => orb.getD y 0 == orb.getD x 0)) hdlen hdsort
      simp only [cellGroupsF, List.map_cons, List.headD_cons]
      constructor
      · intro hmem
        rcases List.mem_cons.1 hmem with rfl | hu
        · refine ⟨List.mem_cons_self _ _, ?_⟩
          intro w hw hww
          rcases List.mem_cons.1 hw with rfl | hw'
          · exact Nat.le_refl _
          · rcases hx w hw' with h1 | ⟨_, h2⟩
            · omega
            · exact h2
        · have hud := (ihd u).1 hu
          refine ⟨List.mem_cons_of_mem x ((hmemxs u).2 (Or.inr hud.1)), ?_⟩
          intro w hw hww
          have hune : orb.getD u 0 ≠ orb.getD x 0 := hdrop u hud.1
          rcases List.mem_cons.1 hw with rfl | hw'
          · exact absurd hww.symm hune
          · rcases (hmemxs w).1 hw' with hwt | hwd
            · exact absurd (htake w hwt) (fun h => hune ((h.symm.trans hww).symm))
            · exact hud.2 w hwd hww
      · rintro ⟨hu, hmin⟩
        by_cases hux : orb.getD u 0 = orb.getD x 0
        · refine List.mem_cons.2 (Or.inl ?_)
          rcases List.mem_cons.1 hu with rfl | hu'
          · rfl
          · have h1 : u ≤ x := hmin x (List.mem_cons_self x xs) hux.symm
            have h2 : x ≤ u := by
              rcases hx u hu' with h | ⟨_, h⟩
              · omega
              · exact h
            omega
        · refine List.mem_cons.2 (Or.inr ?_)
          rcases List.mem_cons.1 hu with rfl | hu'
          · exact absurd rfl hux
          · have hud : u ∈ xs.dropWhile (fun y => orb.getD y 0 == orb.getD x 0) := by
              rcases (hmemxs u).1 hu' with hut | hud
              · exact absurd (htake u hut) hux
              · exact hud
            refine (ihd u).2 ⟨hud, ?_⟩
            intro w hwd hww
            exact hmin w (List.mem_cons_of_mem x ((hmemxs w).2 (Or.inr hwd))) hww

/-- Every element of a sorted list has a cell head with its orbit value. -/
theorem cgHeadsF_cover (orb : List Nat) :
    ∀ fuel : Nat, ∀ s : List Nat, s.length ≤ fuel →
    ∀ u ∈ s, ∃ h, h ∈ (cellGroupsF orb fuel s).map (fun c => c.headD 0) ∧
      orb.getD h 0 = orb.getD u 0 := by
  intro fuel
  induction fuel with
  | zero =>
    intro s hlen u hu
    have : s = [] := List.length_eq_zero.1 (Nat.le_zero.1 hlen)
    subst this
    exact absurd hu (List.not_mem_nil u)
  | succ fuel ih =>
    intro s hlen u hu
    match s with
    | [] => exact absurd hu (List.not_mem_nil u)
    | x :: xs =>
      have hdlen : (xs.dropWhile (fun y => orb.getD y 0 == orb.getD x 0)).length ≤ fuel := by
        have h1 := (List.dropWhile_sublist
          (fun y => orb.getD y 0 == orb.getD x 0) (l := xs)).length_le
        have h2 : xs.length ≤ fuel := by
          simpa using Nat.le_of_succ_le_succ (by simpa using hlen)
        omega
      simp only [cellGroupsF, List.map_cons, List.headD_cons]
      rcases List.mem_cons.1 hu with rfl | hu'
      · exact ⟨u, List.mem_cons_self _ _, rfl⟩
      · have hu2 : u ∈ xs.takeWhile (fun y => orb.getD y 0 == orb.getD x 0) ∨
            u ∈ xs.dropWhile (fun y => orb.getD y 0 == orb.getD x 0) := by
          rw [← List.takeWhile_append_dropWhile
            (fun y => orb.getD y 0 == orb.getD x 0) xs] at hu'
          exact List.mem_append.1 hu'
        rcases hu2 with hut | hud
        · refine ⟨x, List.mem_cons_self _ _, ?_⟩
          have := List.mem_takeWhile_imp hut
          simp only [beq_iff_eq] at this
          exact this.symm
        · rcases ih (xs.dropWhile (fun y => orb.getD y 0 == orb.getD x 0)) hdlen u hud
            with ⟨h, hh, hhu⟩
          exact ⟨h, List.mem_cons_of_mem _ hh, hhu⟩

/-- Heads of the orbit cells of the full sorted vertex list are exactly
the orbit minima. -/
theorem cgHeads_min (orb : List Nat) (u : Nat) :
    u ∈ cgHeads orb (graph_orbit_cells orb) ↔
      (u < orb.length ∧ ∀ w, w < orb.length →
        orb.getD w 0 = orb.getD u 0 → u ≤ w) := by
  unfold cgHeads cellGroups
  rw [cgHeadsF_spec orb (graph_orbit_cells orb).length (graph_orbit_cells orb)
    (Nat.le_refl _) (orbit_cells_sorted orb) u]
  constructor
  · rintro ⟨h1, h2⟩
    exact ⟨(mem_orbit_cells orb u).1 h1,
      fun w hw => h2 w ((mem_orbit_cells orb w).2 hw)⟩
  · rintro ⟨h1, h2⟩
    exact ⟨(mem_orbit_cells orb u).2 h1,
      fun w hw => h2 w ((mem_orbit_cells orb w).1 hw)⟩

/-- Every vertex has an orbit-cell head with its orbit value. -/
theorem cgHeads_cover (orb : List Nat) (u : Nat) (hu : u < orb.length) :
    ∃ h, h ∈ cgHeads orb (graph_orbit_cells orb) ∧
      orb.getD h 0 = orb.getD u 0 := by
  unfold cgHeads cellGroups
  exact cgHeadsF_cover orb (graph_orbit_cells orb).length (graph_orbit_cells orb)
    (Nat.le_refl _) u ((mem_orbit_cells orb u).2 hu)

/-- Writing a constant at a list of targets: the written entries are
exactly the targets. -/
theorem foldl_set_getD (targets : List Nat) (v : Nat) :
    ∀ (ind : List Nat) (x : Nat), x < ind.length →
    (targets.foldl (fun q t => q.set t v) ind).getD x 0 =
      if x ∈ targets then v else ind.getD x 0 := by
  induction targets with
  | nil => simp
  | cons t ts ih =>
    intro ind x hx
    simp only [List.foldl_cons]
    rw [ih (ind.set t v) x (by simpa using hx)]
    by_cases hxt : x ∈ ts
    · simp [hxt, List.mem_cons]
    · by_cases hxe : t = x
      · subst hxe
        rw [if_neg hxt, getD_set_self ind t v 0 hx,
          if_pos (List.mem_cons_self t ts)]
      · rw [if_neg hxt, getD_set_ne ind t x v 0 hxe, if_neg ?_]
        intro hmem
        rcases List.mem_cons.1 hmem with h | h
        · exact hxe h.symm
        · exact hxt h

/-! ### Claim C7: the orbit-min indicator. -/

/-- Claim C7: the vector produced by `orbit_min_ind` has exactly one bit
set per orbit of the labeler's orbit partition, and the bit for an orbit
sits at position `nu(u)` (or `u` when no relabeling is given) where `u` is
the minimum-indexed element of that orbit under ordinary integer
ordering.  Formally: (1) position `x` is set iff `x` is the `nu`-image of
an orbit minimum; (2) every orbit has exactly one minimum; (3) `nu` is
injective on the vertex range, so distinct orbits set distinct bits. -/
theorem claim_c7_orbit_min (orb : List Nat) (relabel : Option (List Nat))
    (hrel : ∀ mp, relabel = some mp → isPerm orb.length mp) :
    (∀ x, x < orb.length →
      ((orbit_min_ind orb relabel).getD x 0 = 1 ↔
        ∃ u, u < orb.length ∧ nu_apply relabel u = x ∧
          ∀ w, w < orb.length → orb.getD w 0 = orb.getD u 0 → u ≤ w)) ∧
    (∀ u, u < orb.length → ∃ h, (h < orb.length ∧ orb.getD h 0 = orb.getD u 0 ∧
      (∀ w, w < orb.length → orb.getD w 0 = orb.getD h 0 → h ≤ w)) ∧
      ∀ h', (h' < orb.length ∧ orb.getD h' 0 = orb.getD u 0 ∧
        (∀ w, w < orb.length → orb.getD w 0 = orb.getD h' 0 → h' ≤ w)) → h' = h) ∧
    (∀ u u', u < orb.length → u' < orb.length →
      nu_apply relabel u = nu_apply relabel u' → u = u') := by
  refine ⟨?_, ?_, ?_⟩
  · intro x hx
    have hfold0 : orbit_min_ind orb relabel =
        ((orbit_cell_list orb).map (fun c => nu_apply relabel (c.headD 0))).foldl
          (fun q t => q.set t 1) (List.replicate orb.length 0) := by
      unfold orbit_min_ind
      exact (List.foldl_map (fun c => nu_apply relabel (c.headD 0))
        (fun q t => q.set t 1) (orbit_cell_list orb)
        (List.replicate orb.length 0)).symm
    have hfold : (orbit_min_ind orb relabel).getD x 0 =
        if x ∈ (orbit_cell_list orb).map
            (fun c => nu_apply relabel (c.headD 0)) then 1
        else (List.replicate orb.length 0).getD x 0 := by
      rw [hfold0]
      exact foldl_set_getD _ 1 (List.replicate orb.length 0) x
        (by simpa using hx)
    rw [hfold]
    have hmap : (orbit_cell_list orb).map
        (fun c => nu_apply relabel (c.headD 0)) =
        (cgHeads orb (graph_orbit_cells orb)).map (nu_apply relabel) := by
      unfold cgHeads orbit_cell_list
      rw [List.map_map]
      rfl
    rw [hmap]
    constructor
    · intro h1
      by_cases hmem : x ∈ (cgHeads orb (graph_orbit_cells orb)).map (nu_apply relabel)
      · rcases List.mem_map.1 hmem with ⟨u, hu, hux⟩
        rcases (cgHeads_min orb u).1 hu with ⟨hun, humin⟩
        exact ⟨u, hun, hux, humin⟩
      · rw [if_neg hmem, getD_replicate orb.length x 0 0 hx] at h1
        exact absurd h1 (by decide)
    · rintro ⟨u, hun, hux, humin⟩
      rw [if_pos (List.mem_map.2 ⟨u, (cgHeads_min orb u).2 ⟨hun, humin⟩, hux⟩)]
  · intro u hu
    rcases cgHeads_cover orb u hu with ⟨h, hh, hhu⟩
    rcases (cgHeads_min orb h).1 hh with ⟨hhn, hhmin⟩
    refine ⟨h, ⟨hhn, hhu, hhmin⟩, ?_⟩
    rintro h' ⟨hn', heq', hmin'⟩
    have h1 : h' ≤ h := hmin' h hhn (hhu.trans heq'.symm)
    have h2 : h ≤ h' := hhmin h' hn' (heq'.trans hhu.symm)
    omega
  · intro u u' hu hu' heq
    match relabel, hrel with
    | none, _ => exact heq
    | some mp, hrel =>
      have hperm := hrel mp rfl
      exact hperm.2.2 u hu u' hu' heq

/-- Witness for claim C7 at a concrete instance: orbits {0} and {1, 2},
relabeling (0 2); the orbit minima 0 and 1 set bits at positions 2 and
1. -/
theorem claim_c7_witness :
    isPerm 3 [2, 1, 0] ∧
    (orbit_min_ind [0, 1, 1] (some [2, 1, 0])).getD 2 0 = 1 := by
  refine ⟨by decide, ?_⟩
  have h := claim_c7_orbit_min [0, 1, 1] (some [2, 1, 0])
    (fun mp hmp => (Option.some.inj hmp) ▸ (by decide : isPerm 3 [2, 1, 0]))
  exact ((h.1 2 (by decide)).2 ⟨0, by decide, by decide, by decide⟩)

/-! ### Traversal builder: basic facts about the orbit element list. -/

theorem range_getD (n i : Nat) (h : i < n) : (List.range n).getD i 0 = i := by
  rw [getD_eq_getElem _ _ _ (by simpa using h)]
  simp

theorem trav_list_lt (orb : List Nat) (n root : Nat) :
    ∀ u ∈ trav_list orb n root, u < n := by
  intro u hu
  exact List.mem_range.1 (List.mem_of_mem_filter hu)

theorem trav_list_nodup (orb : List Nat) (n root : Nat) :
    (trav_list orb n root).Nodup :=
  (List.nodup_range n).filter _

theorem trav_list_pairwise (orb : List Nat) (n root : Nat) :
    List.Pairwise (· < ·) (trav_list orb n root) :=
  (List.pairwise_lt_range n).filter _

theorem trav_list_same_orbit (orb : List Nat) (n root : Nat) :
    ∀ u ∈ trav_list orb n root, graph_same_orbit orb u root = true := by
  intro u hu
  unfold trav_list at hu
  simpa using List.of_mem_filter hu

theorem root_mem_trav_list (orb : List Nat) (n root : Nat) (h : root < n) :
    root ∈ trav_list orb n root := by
  refine List.mem_filter.2 ⟨List.mem_range.2 h, ?_⟩
  simp [graph_same_orbit]

theorem trav_list_getD_mem (orb : List Nat) (n root j : Nat)
    (hj : j < (trav_list orb n root).length) :
    (trav_list orb n root).getD j 0 ∈ trav_list orb n root := by
  rw [getD_eq_getElem _ _ _ hj]
  exact List.getElem_mem hj

theorem trav_list_indexOf_getD (orb : List Nat) (n root j : Nat)
    (hj : j < (trav_list orb n root).length) :
    List.indexOf ((trav_list orb n root).getD j 0) (trav_list orb n root) = j := by
  rw [getD_eq_getElem _ _ _ hj]
  exact List.indexOf_getElem (trav_list_nodup orb n root) j hj

theorem trav_list_getD_indexOf (orb : List Nat) (n root u : Nat)
    (hu : u ∈ trav_list orb n root) :
    (trav_list orb n root).getD (List.indexOf u (trav_list orb n root)) 0 = u := by
  rw [getD_eq_getElem _ _ _ (List.indexOf_lt_length.2 hu)]
  exact List.getElem_indexOf (List.indexOf_lt_length.2 hu)

theorem trav_rootpos_lt (orb : List Nat) (n root : Nat) (h : root < n) :
    trav_rootpos orb n root < (trav_list orb n root).length :=
  List.indexOf_lt_length.2 (root_mem_trav_list orb n root h)

theorem trav_list_getD_rootpos (orb : List Nat) (n root : Nat) (h : root < n) :
    (trav_list orb n root).getD (trav_rootpos orb n root) 0 = root :=
  trav_list_getD_indexOf orb n root root (root_mem_trav_list orb n root h)

/-! ### Traversal builder: the loop invariant. -/

theorem trav_init_inv (orb : List Nat) (gens : List (List Nat)) (n root : Nat)
    (hroot : root < n) :
    TravInv orb gens n root
      (trav_init_ind orb n root,
       trav_init_t n (trav_rootpos orb n root) (trav_list orb n root).length) := by
  have hind : ∀ i, i < n → (trav_init_ind orb n root).getD i 0 =
      (if graph_same_orbit orb i root then
        (if i = root then (-1 : Int)
         else (List.indexOf i (trav_list orb n root) : Int))
       else -((n : Int) + 1)) := by
    intro i hi
    exact getD_map_range _ n i 0 hi
  have ht : ∀ j, j < (trav_list orb n root).length →
      (trav_init_t n (trav_rootpos orb n root) (trav_list orb n root).length).getD j [] =
      (if j = trav_rootpos orb n root then List.range n else List.replicate n 0) := by
    intro j hj
    exact getD_map_range _ _ j [] hj
  refine ⟨by simp [trav_init_ind], by simp [trav_init_t], ?_, ?_, ?_, ?_, ?_⟩
  · rw [hind root hroot]
    simp [graph_same_orbit]
  · rw [ht (trav_rootpos orb n root) (trav_rootpos_lt orb n root hroot)]
    simp
  · intro j hj
    have hu := trav_list_getD_mem orb n root j hj
    rw [hind _ (trav_list_lt orb n root _ hu)]
    rw [if_pos (trav_list_same_orbit orb n root _ hu)]
    by_cases hr : (trav_list orb n root).getD j 0 = root
    · rw [if_pos hr]
      exact Or.inr rfl
    · rw [if_neg hr, trav_list_indexOf_getD orb n root j hj]
      exact Or.inl rfl
  · intro v hv hvn
    rw [hind v hv]
    rw [if_neg ?_]
    intro hso
    exact hvn (List.mem_filter.2 ⟨List.mem_range.2 hv, hso⟩)
  · intro j hj hdone
    have hu := trav_list_getD_mem orb n root j hj
    rw [hind _ (trav_list_lt orb n root _ hu),
      if_pos (trav_list_same_orbit orb n root _ hu)] at hdone
    by_cases hr : (trav_list orb n root).getD j 0 = root
    · have hjroot : j = trav_rootpos orb n root := by
        have := trav_list_indexOf_getD orb n root j hj
        rw [hr] at this
        unfold trav_rootpos
        omega
      rw [ht j hj, if_pos hjroot]
      refine ⟨ProdGens.id, ?_⟩
      rw [range_getD n root hroot, hr]
    · rw [if_neg hr] at hdone
      exact absurd hdone (by omega)

theorem trav_apply_gen_inv (orb : List Nat) (gens : List (List Nat)) (n root : Nat)
    (hroot : root < n) (p : List Nat) (hp : p ∈ gens) (hperm : isPerm n p)
    (st : List Int × List (List Nat))
    (hinv : TravInv orb gens n root st) :
    TravInv orb gens n root (trav_apply_gen n (trav_list orb n root) p st) := by
  unfold trav_apply_gen
  refine foldl_preserve (TravInv orb gens n root) _ _ st ?_ hinv
  intro st j hjmem hinv
  obtain ⟨hlen1, hlen2, hrootind, hrootrow, hpos, hnon, hdone⟩ := hinv
  have hj : j < (trav_list orb n root).length := List.mem_range.1 hjmem
  split
  case isFalse => exact ⟨hlen1, hlen2, hrootind, hrootrow, hpos, hnon, hdone⟩
  case isTrue hcond =>
    obtain ⟨hq0, hu0⟩ := hcond
    set u := (trav_list orb n root).getD j 0 with hu
    set v := p.getD u 0 with hv
    have humem : u ∈ trav_list orb n root := trav_list_getD_mem orb n root j hj
    have hun : u < n := trav_list_lt orb n root u humem
    have hvn : v < n := hperm.2.1 u hun
    have hvmem : v ∈ trav_list orb n root := by
      by_contra hvno
      have := hnon v hvn hvno
      omega
    have hjv : List.indexOf v (trav_list orb n root) < (trav_list orb n root).length :=
      List.indexOf_lt_length.2 hvmem
    have hvq : st.1.getD v 0 = (List.indexOf v (trav_list orb n root) : Int) := by
      have h1 := hpos (List.indexOf v (trav_list orb n root)) hjv
      rw [trav_list_getD_indexOf orb n root v hvmem] at h1
      rcases h1 with h1 | h1
      · exact h1
      · omega
    have hqnat : (st.1.getD v 0).toNat = List.indexOf v (trav_list orb n root) := by
      rw [hvq]
      rfl
    have hudone : st.1.getD u 0 = -1 := by
      have h1 := hpos j hj
      rw [← hu] at h1
      rcases h1 with h1 | h1
      · omega
      · exact h1
    have hrowj := hdone j hj (by rw [← hu]; exact hudone)
    have hvroot : v ≠ root := by
      intro hveq
      rw [hveq, hrootind] at hq0
      omega
    have hjvrootpos : List.indexOf v (trav_list orb n root) ≠ trav_rootpos orb n root := by
      intro heq
      have h2 := trav_list_getD_indexOf orb n root v hvmem
      rw [heq, trav_list_getD_rootpos orb n root hroot] at h2
      exact hvroot h2.symm
    rw [hqnat]
    refine ⟨?_, ?_, ?_, ?_, ?_, ?_, ?_⟩
    · simpa using hlen1
    · simpa using hlen2
    · rw [getD_set_ne st.1 v root (-1) 0 hvroot]
      exact hrootind
    · rw [getD_set_ne st.2 (List.indexOf v (trav_list orb n root))
        (trav_rootpos orb n root) _ [] hjvrootpos]
      exact hrootrow
    · intro j' hj'
      by_cases hwv : (trav_list orb n root).getD j' 0 = v
      · rw [hwv, getD_set_self st.1 v (-1) 0 (by omega)]
        exact Or.inr rfl
      · rw [getD_set_ne st.1 v ((trav_list orb n root).getD j' 0) (-1) 0
          (fun h => hwv h.symm)]
        exact hpos j' hj'
    · intro w hw hwno
      have hwv : v ≠ w := fun h => hwno (h ▸ hvmem)
      rw [getD_set_ne st.1 v w (-1) 0 hwv]
      exact hnon w hw hwno
    · intro j' hj' hd'
      by_cases hwv : (trav_list orb n root).getD j' 0 = v
      · have hj'jv : j' = List.indexOf v (trav_list orb n root) := by
          have h2 := trav_list_indexOf_getD orb n root j' hj'
          rw [hwv] at h2
          omega
        rw [hj'jv, getD_set_self st.2 (List.indexOf v (trav_list orb n root)) _ []
          (by omega)]
        constructor
        · exact ProdGens.comp (st.2.getD j []) p hrowj.1 hp
        · rw [getD_map_range (fun i => p.getD ((st.2.getD j []).getD i 0) 0) n root 0
            hroot, hrowj.2, trav_list_getD_indexOf orb n root v hvmem]
      · have hne : v ≠ (trav_list orb n root).getD j' 0 := fun h => hwv h.symm
        rw [getD_set_ne st.1 v ((trav_list orb n root).getD j' 0) (-1) 0 hne] at hd'
        have hj'jv : j' ≠ List.indexOf v (trav_list orb n root) := by
          intro heq
          rw [heq] at hwv
          exact hwv (trav_list_getD_indexOf orb n root v hvmem)
        rw [getD_set_ne st.2 (List.indexOf v (trav_list orb n root)) j' _ []
          (fun h => hj'jv h.symm)]
        exact hdone j' hj' hd'

theorem trav_sweep_inv (orb : List Nat) (gens : List (List Nat)) (n root : Nat)
    (hroot : root < n) (hg : ∀ p ∈ gens, isPerm n p)
    (st : List Int × List (List Nat))
    (hinv : TravInv orb gens n root st) :
    TravInv orb gens n root (trav_sweep n (trav_list orb n root) gens st) := by
  unfold trav_sweep
  refine foldl_preserve (TravInv orb gens n root) _ _ st ?_ hinv
  intro st p hpmem hinv
  exact trav_apply_gen_inv orb gens n root hroot p hpmem (hg p hpmem) st hinv

theorem trav_loop_some (orb : List Nat) (gens : List (List Nat)) (n root : Nat)
    (hroot : root < n) (hg : ∀ p ∈ gens, isPerm n p) :
    ∀ fuel st st', TravInv orb gens n root st →
    trav_loop n (trav_list orb n root) gens fuel st = some st' →
    TravInv orb gens n root st' ∧ trav_done (trav_list orb n root) st'.1 = true := by
  intro fuel
  induction fuel with
  | zero =>
    intro st st' hinv hres
    unfold trav_loop at hres
    split at hres
    · cases hres
      exact ⟨hinv, by assumption⟩
    · cases hres
  | succ fuel ih =>
    intro st st' hinv hres
    unfold trav_loop at hres
    split at hres
    · cases hres
      exact ⟨hinv, by assumption⟩
    · split at hres
      · cases hres
      · exact ih _ st' (trav_sweep_inv orb gens n root hroot hg st hinv) hres

/-- Products of permutations are permutations. -/
theorem prodGens_isPerm (gens : List (List Nat)) (n : Nat)
    (hg : ∀ p ∈ gens, isPerm n p) :
    ∀ q, ProdGens gens n q → isPerm n q := by
  intro q h
  induction h with
  | id =>
    refine ⟨List.length_range n, ?_, ?_⟩
    · intro i hi
      rw [range_getD n i hi]
      exact hi
    · intro i hi j hj hij
      rw [range_getD n i hi, range_getD n j hj] at hij
      exact hij
  | comp q p hq hp ih =>
    have hpp := hg p hp
    refine ⟨by simp, ?_, ?_⟩
    · intro i hi
      rw [getD_map_range _ n i 0 hi]
      exact hpp.2.1 _ (ih.2.1 i hi)
    · intro i hi j hj hij
      rw [getD_map_range _ n i 0 hi, getD_map_range _ n j 0 hj] at hij
      exact ih.2.2 i hi j hj
        (hpp.2.2 _ (ih.2.1 i hi) _ (ih.2.1 j hj) hij)

/-- Shared characterization of a successfully built traversal: the orbit
list is the ascending orbit of the root, rows are generator products
(hence permutations) carrying the root to their orbit element, and the
root's row is the identity. -/
theorem traversal_ok_spec (orb : List Nat) (gens : List (List Nat))
    (n root : Nat) (t : List (List Nat)) (lst : List Nat)
    (hg : ∀ p ∈ gens, isPerm n p)
    (hres : traversal_prepare orb gens n root = TravResult.ok t lst) :
    lst = trav_list orb n root ∧
    t.length = lst.length ∧
    t.getD (trav_rootpos orb n root) [] = List.range n ∧
    ∀ j, j < lst.length →
      ProdGens gens n (t.getD j []) ∧ isPerm n (t.getD j []) ∧
      (t.getD j []).getD root 0 = lst.getD j 0 := by
  unfold traversal_prepare at hres
  split at hres
  · cases hres
  case isFalse hnroot =>
    have hroot : root < n := by omega
    split at hres
    · cases hres
    case h_2 st heq =>
      split at hres
      case isFalse => cases hres
      case isTrue hval =>
        rcases hres with ⟨rfl, rfl⟩
        have hinv := (trav_loop_some orb gens n root hroot hg _ _ st
          (trav_init_inv orb gens n root hroot) heq).1
        have hdonest := (trav_loop_some orb gens n root hroot hg _ _ st
          (trav_init_inv orb gens n root hroot) heq).2
        obtain ⟨hlen1, hlen2, hrootind, hrootrow, hpos, hnon, hdone⟩ := hinv
        refine ⟨rfl, hlen2, hrootrow, ?_⟩
        intro j hj
        have hmem : (trav_list orb n root).getD j 0 ∈ trav_list orb n root :=
          trav_list_getD_mem orb n root j hj
        have hlt : st.1.getD ((trav_list orb n root).getD j 0) 0 < 0 := by
          have := List.all_eq_true.1 hdonest _ hmem
          simpa using this
        have hm1 : st.1.getD ((trav_list orb n root).getD j 0) 0 = -1 := by
          rcases hpos j hj with h1 | h1
          · omega
          · exact h1
        have hrow := hdone j hj hm1
        exact ⟨hrow.1, prodGens_isPerm gens n hg _ hrow.1, hrow.2⟩

/-- Claim C6: traversal validity.  For every graph and root vertex for
which `traversal_prepare` returns a transversal, every row `tau_j` is a
permutation of `0..n-1` lying in Aut(G) in the sense guaranteed by the
labeler contract — a product of the labeler's generators — with
`tau_j(root)` equal to the `j`-th orbit element, and the permutation
associated with the root itself is the identity. -/
theorem claim_c6_traversal_valid (orb : List Nat) (gens : List (List Nat))
    (n root : Nat) (t : List (List Nat)) (lst : List Nat)
    (hg : ∀ p ∈ gens, isPerm n p)
    (hres : traversal_prepare orb gens n root = TravResult.ok t lst) :
    lst = trav_list orb n root ∧
    t.length = lst.length ∧
    t.getD (trav_rootpos orb n root) [] = List.range n ∧
    ∀ j, j < lst.length →
      ProdGens gens n (t.getD j []) ∧ isPerm n (t.getD j []) ∧
      (t.getD j []).getD root 0 = lst.getD j 0 :=
  traversal_ok_spec orb gens n root t lst hg hres

/-- Witness for claim C6: the 2-vertex orbit with the transposition
generator builds the traversal (identity, transposition) with orbit list
(0, 1). -/
theorem claim_c6_witness :
    (∀ p ∈ [[1, 0]], isPerm 2 p) ∧
    (traversal_prepare [0, 0] [[1, 0]] 2 0 = TravResult.ok [[0, 1], [1, 0]] [0, 1] ∧
      ProdGens [[1, 0]] 2 ([[0, 1], [1, 0]].getD 1 []) ∧
      ([[0, 1], [1, 0]].getD 1 []).getD 0 0 = [0, 1].getD 1 0) := by
  have hg : ∀ p ∈ [[1, 0]], isPerm 2 p := by decide
  have hres : traversal_prepare [0, 0] [[1, 0]] 2 0 =
      TravResult.ok [[0, 1], [1, 0]] [0, 1] := by decide
  have h := claim_c6_traversal_valid [0, 0] [[1, 0]] 2 0 [[0, 1], [1, 0]] [0, 1] hg hres
  exact ⟨hg, hres, (h.2.2.2 1 (by decide)).1, (h.2.2.2 1 (by decide)).2.2⟩

/-! ### Claim C4 (amended): non-coverage makes the builder hang. -/

theorem trav_init_reach (orb : List Nat) (gens : List (List Nat)) (n root : Nat) :
    ReachInv gens root (trav_list orb n root) (trav_init_ind orb n root) := by
  intro u hu hlt
  have hun : u < n := trav_list_lt orb n root u hu
  have hval : (trav_init_ind orb n root).getD u 0 =
      (if graph_same_orbit orb u root then
        (if u = root then (-1 : Int)
         else (List.indexOf u (trav_list orb n root) : Int))
       else -((n : Int) + 1)) := getD_map_range _ n u 0 hun
  rw [hval, if_pos (trav_list_same_orbit orb n root u hu)] at hlt
  by_cases hur : u = root
  · exact hur ▸ Reach.refl
  · rw [if_neg hur] at hlt
    omega

theorem trav_apply_gen_reach (gens : List (List Nat)) (root n : Nat)
    (lst : List Nat) (p : List Nat) (hp : p ∈ gens)
    (st : List Int × List (List Nat))
    (hri : ReachInv gens root lst st.1) :
    ReachInv gens root lst (trav_apply_gen n lst p st).1 := by
  unfold trav_apply_gen
  refine foldl_preserve (fun st => ReachInv gens root lst st.1) _ _ st ?_ hri
  intro st j hjmem hri
  have hj : j < lst.length := List.mem_range.1 hjmem
  split
  case isFalse => exact hri
  case isTrue hcond =>
    intro u' hu' hlt'
    by_cases hu'v : u' = p.getD (lst.getD j 0) 0
    · have humem : lst.getD j 0 ∈ lst := by
        rw [getD_eq_getElem _ _ _ hj]
        exact List.getElem_mem hj
      have hreach : Reach gens root (lst.getD j 0) := hri _ humem hcond.2
      exact hu'v ▸ Reach.step _ p hreach hp
    · rw [getD_set_ne st.1 _ u' (-1) 0 (fun h => hu'v h.symm)] at hlt'
      exact hri u' hu' hlt'

theorem trav_sweep_reach (gens : List (List Nat)) (root n : Nat)
    (lst : List Nat) (st : List Int × List (List Nat))
    (hri : ReachInv gens root lst st.1) :
    ReachInv gens root lst (trav_sweep n lst gens st).1 := by
  unfold trav_sweep
  refine foldl_preserve (fun st => ReachInv gens root lst st.1) _ _ st ?_ hri
  intro st p hpmem hri
  exact trav_apply_gen_reach gens root n lst p hpmem st hri

theorem reach_not_done (gens : List (List Nat)) (root : Nat) (lst : List Nat)
    (ind : List Int) (hri : ReachInv gens root lst ind)
    (w : Nat) (hw : w ∈ lst) (hnr : ¬ Reach gens root w) :
    ¬ trav_done lst ind = true := by
  intro hdone
  have := List.all_eq_true.1 hdone w hw
  exact hnr (hri w hw (by simpa using this))

theorem trav_loop_hang (gens : List (List Nat)) (n root : Nat)
    (lst : List Nat) (w : Nat) (hw : w ∈ lst) (hnr : ¬ Reach gens root w) :
    ∀ fuel st, ReachInv gens root lst st.1 →
      trav_loop n lst gens fuel st = none := by
  intro fuel
  induction fuel with
  | zero =>
    intro st hri
    unfold trav_loop
    rw [if_neg (reach_not_done gens root lst st.1 hri w hw hnr)]
  | succ fuel ih =>
    intro st hri
    unfold trav_loop
    rw [if_neg (reach_not_done gens root lst st.1 hri w hw hnr)]
    split
    · rfl
    · exact ih _ (trav_sweep_reach gens root n lst st hri)

/-- Claim C4 (amended): when the orbit of the root cannot be covered by
products of the labeler's generator stream (some orbit element is not
reachable from the root), `traversal_prepare` does not abort; its outer
`while(1)` loop runs forever (modelled by `TravResult.hang`), never
returning and never reaching the fatal validation abort. -/
theorem claim_c4_amended (orb : List Nat) (gens : List (List Nat)) (n root : Nat)
    (hroot : root < n) (w : Nat) (hw : w ∈ trav_list orb n root)
    (hnr : ¬ Reach gens root w) :
    traversal_prepare orb gens n root = TravResult.hang := by
  unfold traversal_prepare
  rw [if_neg (by omega)]
  rw [trav_loop_hang gens n root (trav_list orb n root) w hw hnr _ _
    (trav_init_reach orb gens n root)]

/-- Witness for the amended claim C4 at the concrete contract-violating
input of the counterexample. -/
theorem claim_c4_witness :
    (0 < 2 ∧ 1 ∈ trav_list [0, 0] 2 0) ∧
    traversal_prepare [0, 0] [] 2 0 = TravResult.hang :=
  ⟨⟨by decide, by decide⟩,
   claim_c4_amended [0, 0] [] 2 0 (by decide) 1 (by decide)
     (fun h => absurd (reach_nil 0 1 h) (by decide))⟩

/-! ### Claim C10: ascending orbit order and the seed-minimum scans. -/

/-- On a strictly ascending list, `find?` returns the least element
satisfying the predicate. -/
theorem find?_min_of_ascending (l : List Nat) (pred : Nat → Bool)
    (hl : List.Pairwise (· < ·) l) :
    ∀ v, l.find? pred = some v →
      v ∈ l ∧ pred v = true ∧ ∀ w ∈ l, pred w = true → v ≤ w := by
  induction l with
  | nil => intro v hv; cases hv
  | cons a l ih =>
    intro v hv
    by_cases hpa : pred a = true
    · rw [List.find?_cons_of_pos l hpa] at hv
      cases hv
      refine ⟨List.mem_cons_self _ _, hpa, ?_⟩
      intro w hw _
      rcases List.mem_cons.1 hw with rfl | hw'
      · exact Nat.le_refl _
      · exact Nat.le_of_lt ((List.pairwise_cons.1 hl).1 w hw')
    · rw [List.find?_cons_of_neg l hpa] at hv
      rcases ih (List.pairwise_cons.1 hl).2 v hv with ⟨h1, h2, h3⟩
      refine ⟨List.mem_cons_of_mem a h1, h2, ?_⟩
      intro w hw hpw
      rcases List.mem_cons.1 hw with rfl | hw'
      · exact absurd hpw hpa
      · exact h3 w hw' hpw

theorem find?_exists (l : List Nat) (pred : Nat → Bool) :
    (∃ w ∈ l, pred w = true) → ∃ v, l.find? pred = some v := by
  induction l with
  | nil => rintro ⟨w, hw, _⟩; exact absurd hw (List.not_mem_nil w)
  | cons a l ih =>
    rintro ⟨w, hw, hpw⟩
    by_cases hpa : pred a = true
    · exact ⟨a, List.find?_cons_of_pos l hpa⟩
    · rw [List.find?_cons_of_neg l hpa]
      rcases List.mem_cons.1 hw with rfl | hw'
      · exact absurd hpw hpa
      · exact ih ⟨w, hw', hpw⟩

/-- Claim C10: the deterministic order of orbit elements in a traversal is
ascending vertex index — `tau_j(root)` is the `j`-th smallest orbit
element — and therefore each seed-minimum scan of the engine (scanning
traversal positions upward from any starting position `s`, as done when
seeding a frame and when advancing to the next seed-minimal variable)
selects the smallest-indexed eligible vertex among the remaining
positions. -/
theorem claim_c10_ascending_scan (orb : List Nat) (gens : List (List Nat))
    (n root : Nat) (t : List (List Nat)) (lst : List Nat) (seedMin : List Nat)
    (hg : ∀ p ∈ gens, isPerm n p)
    (hres : traversal_prepare orb gens n root = TravResult.ok t lst) :
    List.Pairwise (· < ·) lst ∧
    t.map (fun tau => tau.getD root 0) = lst ∧
    (∀ s v, scan_from t root seedMin s = some v →
      v ∈ lst.drop s ∧ seedMin.getD v 0 ≠ 0 ∧
        ∀ w ∈ lst.drop s, seedMin.getD w 0 ≠ 0 → v ≤ w) ∧
    (∀ s, (∃ w ∈ lst.drop s, seedMin.getD w 0 ≠ 0) →
      ∃ v, scan_from t root seedMin s = some v) := by
  obtain ⟨hlst, hlen, _, hrows⟩ :=
    traversal_ok_spec orb gens n root t lst hg hres
  subst hlst
  have himg : t.map (fun tau => tau.getD root 0) = trav_list orb n root := by
    refine List.ext_getElem (by simpa using hlen) ?_
    intro j h1 h2
    rw [List.getElem_map]
    have hj : j < (trav_list orb n root).length := h2
    have := (hrows j hj).2.2
    rw [getD_eq_getElem t j [] (by omega), getD_eq_getElem _ _ _ hj] at this
    exact this
  have hscan : ∀ s, scan_from t root seedMin s =
      ((trav_list orb n root).drop s).find?
        (fun v => decide (seedMin.getD v 0 ≠ 0)) := by
    intro s
    unfold scan_from
    rw [List.map_drop, himg]
  refine ⟨trav_list_pairwise orb n root, himg, ?_, ?_⟩
  · intro s v hv
    rw [hscan s] at hv
    have hpw := find?_min_of_ascending ((trav_list orb n root).drop s) _
      (List.Pairwise.sublist (List.drop_sublist s _) (trav_list_pairwise orb n root))
      v hv
    refine ⟨hpw.1, by simpa using hpw.2.1, ?_⟩
    intro w hw hw2
    exact hpw.2.2 w hw (by simpa using hw2)
  · intro s hex
    rw [hscan s]
    refine find?_exists _ _ ?_
    rcases hex with ⟨w, hw, hw2⟩
    exact ⟨w, hw, by simpa using hw2⟩

/-- Witness for claim C10 at a concrete traversal: orbit (0, 1) is listed
ascending and the scan picks the smallest seed-minimal image. -/
theorem claim_c10_witness :
    (∀ p ∈ [[1, 0]], isPerm 2 p) ∧
    List.Pairwise (· < ·) [0, 1] ∧
    scan_from [[0, 1], [1, 0]] 0 [0, 1] 0 = some 1 := by
  have h := claim_c10_ascending_scan [0, 0] [[1, 0]] 2 0 [[0, 1], [1, 0]] [0, 1]
    [0, 1] (by decide) (by decide)
  exact ⟨by decide, h.1, by decide⟩

/-! ### Claim C3 (amended): the selector with an empty generator stream. -/

theorem foldl_set_length (targets : List Nat) (v : Nat) :
    ∀ ind : List Nat,
      (targets.foldl (fun q t => q.set t v) ind).length = ind.length := by
  induction targets with
  | nil => intro ind; rfl
  | cons t ts ih =>
    intro ind
    rw [List.foldl_cons, ih (ind.set t v), List.length_set]

/-- Content of the `q` indicator built at the start of `orbit_select`. -/
theorem sel_q_init_getD (n : Nat) (m f : List Nat) (h : Nat) (hh : h < n) :
    (sel_q_init n m f).getD h 0 =
      if h ∈ f then 0 else if h ∈ m then 1 else 0 := by
  unfold sel_q_init
  rw [foldl_set_getD f 0 _ h (by
    rw [foldl_set_length m 1 (List.replicate n 0)]
    simpa using hh)]
  by_cases hf : h ∈ f
  · rw [if_pos hf, if_pos hf]
  · rw [if_neg hf, if_neg hf,
      foldl_set_getD m 1 (List.replicate n 0) h (by simpa using hh)]
    by_cases hm : h ∈ m
    · rw [if_pos hm, if_pos hm]
    · rw [if_neg hm, if_neg hm, getD_replicate n h 0 0 hh]

/-- With an empty generator stream the cell scan of `orbit_select` only
performs first-eligible bookkeeping: the fold reduces to a `find?` over
the cell heads. -/
theorem sel_fold_empty (n : Nat) (m : List Nat) :
    ∀ (cells : List (List Nat)) (q0 : List Nat) (ml : Int) (mp : Nat)
      (hg : Bool) (b : Bool) (e : Nat),
    cells.foldl (process_cell n [] m) ⟨q0, ml, mp, hg, b, e⟩ =
      (match (if b = true then some e
              else (cells.map (fun c => c.headD 0)).find?
                (fun h => decide (0 < q0.getD h 0))) with
       | some x => ⟨q0, ml, mp, hg, true, x⟩
       | none => ⟨q0, ml, mp, hg, false, e⟩) := by
  intro cells
  induction cells with
  | nil =>
    intro q0 ml mp hg b e
    cases b
    · rfl
    · rfl
  | cons c cs ih =>
    intro q0 ml mp hg b e
    rw [List.foldl_cons]
    by_cases hel : 0 < q0.getD (c.headD 0) 0
    · have hstep : process_cell n [] m ⟨q0, ml, mp, hg, b, e⟩ c =
          ⟨q0, ml, mp, hg, true, if b = true then e else c.headD 0⟩ := by
        unfold process_cell
        rw [if_pos hel]
        cases b
        · rfl
        · rfl
      rw [hstep, ih q0 ml mp hg true (if b = true then e else c.headD 0)]
      cases b
      · have hfp : List.find? (fun h => decide (0 < q0.getD h 0))
            (c.headD 0 :: (cs.map (fun c => c.headD 0))) = some (c.headD 0) :=
          List.find?_cons_of_pos _ (decide_eq_true hel)
        rw [List.map_cons, hfp]
        rfl
      · rfl
    · have hstep : process_cell n [] m ⟨q0, ml, mp, hg, b, e⟩ c =
          ⟨q0, ml, mp, hg, b, e⟩ := by
        unfold process_cell
        rw [if_neg hel]
      rw [hstep, ih q0 ml mp hg b e]
      cases b
      · have hfn : List.find? (fun h => decide (0 < q0.getD h 0))
            (c.headD 0 :: (cs.map (fun c => c.headD 0))) =
            List.find? (fun h => decide (0 < q0.getD h 0))
              (cs.map (fun c => c.headD 0)) :=
          List.find?_cons_of_neg _ (fun hc => hel (of_decide_eq_true hc))
        rw [List.map_cons, hfn]
      · rfl

/-- With no previous-level indicator and an empty generator stream,
`orbit_select` returns the first orbit-cell head that is an unused
variable vertex. -/
theorem orbit_select_empty_gens (orb : List Nat) (n : Nat) (m f : List Nat) :
    orbit_select orb [] n m f none =
      ((orbit_cell_list orb).map (fun c => c.headD 0)).find?
        (fun h => decide (0 < (sel_q_init n m f).getD h 0)) := by
  unfold orbit_select
  simp only
  rw [sel_fold_empty n m (orbit_cell_list orb) (sel_q_init n m f) (-1) 0
    false false 0]
  cases hfind : ((orbit_cell_list orb).map (fun c => c.headD 0)).find?
      (fun h => decide (0 < (sel_q_init n m f).getD h 0)) with
  | none => rfl
  | some x => rfl

/-- The unused-variable-vertex reading of the `q` indicator. -/
theorem sel_q_init_pos_iff (n : Nat) (m f : List Nat) (h : Nat) (hh : h < n) :
    (0 < (sel_q_init n m f).getD h 0) ↔ (h ∈ m ∧ h ∉ f) := by
  rw [sel_q_init_getD n m f h hh]
  by_cases hf : h ∈ f
  · rw [if_pos hf]
    constructor
    · intro h0
      omega
    · rintro ⟨_, hnf⟩
      exact absurd hf hnf
  · rw [if_neg hf]
    by_cases hm : h ∈ m
    · rw [if_pos hm]
      exact ⟨fun _ => ⟨hm, hf⟩, fun _ => Nat.one_pos⟩
    · rw [if_neg hm]
      constructor
      · intro h0
        omega
      · rintro ⟨hm', _⟩
        exact absurd hm' hm

/-! ### Claim C5: the emission condition of the accepted-candidate step. -/

/-- Claim C5: when a candidate of size `size` passes the isomorph
rejection test, the engine returns the normalized record to the caller if
and only if `size` equals the target length or the truncated |Aut| value
is at most the threshold; on return the value entries are converted to
value-vertex indices (`nvals[i] <- val[nvals[i]]`), the truncated |Aut| is
appended as the trailing field and `stat_out` is incremented; otherwise
the engine pushes an expanded child frame instead of returning. -/
theorem claim_c5_emission (size K : Nat) (t : Int)
    (val autIdx nu vars vals : List Nat) (current_idx current_val : Nat)
    (trav_next : List (List Nat)) (pfx_next : Nat) (seed_min_next : List Nat)
    (stat_out : Nat) :
    ((size = K ∨ ((aut_order_trunc autIdx : Int) ≤ t)) →
      accepted_step size K t val autIdx nu vars vals current_idx current_val
          trav_next pfx_next seed_min_next stat_out =
        some (AcceptedOutcome.emit
          (size :: (((List.range size).map (fun i => nu.getD (vars.getD i 0) 0)) ++
            ((List.range size).map (fun i =>
              val.getD (if i = current_idx then current_val else vals.getD i 0) 0)) ++
            [aut_order_trunc autIdx])), stat_out + 1)) ∧
    (¬(size = K ∨ ((aut_order_trunc autIdx : Int) ≤ t)) →
      ∀ v, scan_from trav_next pfx_next seed_min_next 0 = some v →
        accepted_step size K t val autIdx nu vars vals current_idx current_val
            trav_next pfx_next seed_min_next stat_out =
          some (AcceptedOutcome.expand
            (((List.range size).map (fun i => nu.getD (vars.getD i 0) 0)) ++ [v])
            (((List.range size).map
              (fun i => if i = current_idx then current_val else vals.getD i 0)) ++ [0]),
            stat_out)) ∧
    (∀ out so,
      accepted_step size K t val autIdx nu vars vals current_idx current_val
          trav_next pfx_next seed_min_next stat_out =
        some (AcceptedOutcome.emit out, so) →
      (size = K ∨ ((aut_order_trunc autIdx : Int) ≤ t)) ∧ so = stat_out + 1) := by
  refine ⟨?_, ?_, ?_⟩
  · intro hcond
    simp only [accepted_step]
    rw [if_pos hcond, List.map_map]
    rfl
  · intro hcond v hscan
    simp only [accepted_step]
    rw [if_neg hcond, hscan]
  · intro out so h
    by_cases hcond : size = K ∨ ((aut_order_trunc autIdx : Int) ≤ t)
    · refine ⟨hcond, ?_⟩
      simp only [accepted_step] at h
      rw [if_pos hcond] at h
      have h2 := Option.some.inj h
      exact (congrArg Prod.snd h2).symm
    · simp only [accepted_step] at h
      rw [if_neg hcond] at h
      cases hscan : scan_from trav_next pfx_next seed_min_next 0 with
      | none =>
        rw [hscan] at h
        cases h
      | some v =>
        rw [hscan] at h
        have h2 := Option.some.inj h
        have h3 := congrArg Prod.fst h2
        cases h3

/-- Witness for claim C5: a size-2 candidate at target length 2 is
emitted with converted values, the trailing |Aut| field and the
incremented output counter. -/
theorem claim_c5_witness :
    ((2 : Nat) = 2 ∨ ((aut_order_trunc [2] : Int) ≤ 0)) ∧
    accepted_step 2 2 0 [5, 6] [2] [0, 1, 0] [3, 1] [0, 1] 1 1 [[0, 1]] 0 [1] 7 =
      some (AcceptedOutcome.emit [2, 0, 1, 5, 6, 2], 8) := by
  refine ⟨Or.inl rfl, ?_⟩
  rw [(claim_c5_emission 2 2 0 [5, 6] [2] [0, 1, 0] [3, 1] [0, 1] 1 1 [[0, 1]] 0
    [1] 7).1 (Or.inl rfl)]
  decide

/-! ### Cycle tracing inside `orbit_select`: structural lemmas. -/

theorem getD_set_oob {α : Type} [Inhabited α] (l : List α) (i x : Nat) (v d : α)
    (h : l.length ≤ x) : (l.set i v).getD x d = l.getD x d := by
  rw [List.getD_eq_getElem?_getD, List.getD_eq_getElem?_getD,
    List.getElem?_eq_none (by simpa using h), List.getElem?_eq_none h]

theorem foldl_set_getD_all (targets : List Nat) (v : Nat) :
    ∀ (ind : List Nat) (x : Nat),
    (targets.foldl (fun q t => q.set t v) ind).getD x 0 =
      if x ∈ targets ∧ x < ind.length then v else ind.getD x 0 := by
  induction targets with
  | nil =>
    intro ind x
    simp
  | cons t ts ih =>
    intro ind x
    rw [List.foldl_cons, ih (ind.set t v) x, List.length_set]
    by_cases hx : x < ind.length
    · by_cases hmem : x ∈ ts
      · rw [if_pos ⟨hmem, hx⟩, if_pos ⟨List.mem_cons_of_mem t hmem, hx⟩]
      · rw [if_neg (fun hc => hmem hc.1)]
        by_cases hxt : t = x
        · subst hxt
          rw [getD_set_self ind t v 0 hx, if_pos ⟨List.mem_cons_self t ts, hx⟩]
        · rw [getD_set_ne ind t x v 0 hxt, if_neg ?_]
          rintro ⟨hmem2, _⟩
          rcases List.mem_cons.1 hmem2 with h | h
          · exact hxt h.symm
          · exact hmem h
    · rw [if_neg (fun hc => hx hc.2), if_neg (fun hc => hx hc.2),
        getD_set_oob ind t x v 0 (Nat.le_of_not_lt hx)]

/-- The cycle walk never creates a mark 2. -/
theorem cycle_trace_no_new_2 (a : List Nat) (z : Nat) :
    ∀ fuel w len q x, (cycle_trace a z fuel w len q).1.getD x 0 = 2 →
      q.getD x 0 = 2 := by
  intro fuel
  induction fuel with
  | zero =>
    intro w len q x h
    exact h
  | succ fuel ih =>
    intro w len q x h
    unfold cycle_trace at h
    have hset : ∀ y : Nat, (q.set w 1).getD y 0 = 2 → q.getD y 0 = 2 := by
      intro y hy
      by_cases hyw : y < q.length
      · by_cases hwy : w = y
        · subst hwy
          rw [getD_set_self q w 1 0 hyw] at hy
          exact absurd hy (by decide)
        · rw [getD_set_ne q w y 1 0 hwy] at hy
          exact hy
      · rw [getD_set_oob q w y 1 0 (Nat.le_of_not_lt hyw)] at hy
        exact hy
    split at h
    · exact hset x h
    · exact hset x (ih _ _ _ x h)

/-- After the walk starting at `z`, the mark of `z` is no longer 2. -/
theorem cycle_trace_start_ne_2 (a : List Nat) (z : Nat) (fuel len : Nat)
    (q : List Nat) :
    (cycle_trace a z (fuel + 1) z len q).1.getD z 0 ≠ 2 := by
  intro h
  unfold cycle_trace at h
  have hset : (q.set z 1).getD z 0 ≠ 2 := by
    by_cases hz : z < q.length
    · rw [getD_set_self q z 1 0 hz]
      decide
    · rw [getD_set_oob q z z 1 0 (Nat.le_of_not_lt hz)]
      rw [List.getD_eq_getElem?_getD, List.getElem?_eq_none (Nat.le_of_not_lt hz)]
      decide
  split at h
  · exact hset h
  · exact hset (cycle_trace_no_new_2 a z fuel _ _ _ z h)

/-- The returned cycle length never decreases below the accumulator. -/
theorem cycle_trace_len_ge (a : List Nat) (z : Nat) :
    ∀ fuel w len q, len ≤ (cycle_trace a z fuel w len q).2 := by
  intro fuel
  induction fuel with
  | zero =>
    intro w len q
    exact Nat.le_refl len
  | succ fuel ih =>
    intro w len q
    unfold cycle_trace
    split
    · omega
    · exact Nat.le_trans (by omega) (ih _ (len + 1) _)

/-- A fixed starting point yields cycle length 1. -/
theorem cycle_trace_len_fixed (a : List Nat) (z fuel len : Nat) (q : List Nat)
    (hfix : a.getD z 0 = z) :
    (cycle_trace a z (fuel + 1) z len q).2 = len + 1 := by
  unfold cycle_trace
  rw [if_pos hfix]

/-- A moved starting point yields cycle length at least 2 (two units of
fuel are enough to take two steps of the do-while). -/
theorem cycle_trace_len_moved (a : List Nat) (z fuel len : Nat) (q : List Nat)
    (hmov : a.getD z 0 ≠ z) :
    len + 2 ≤ (cycle_trace a z (fuel + 2) z len q).2 := by
  unfold cycle_trace
  rw [if_neg hmov]
  unfold cycle_trace
  split
  · omega
  · exact Nat.le_trans (by omega) (cycle_trace_len_ge a z fuel _ (len + 2) _)

/-- Under the labeler contract, the cycle walk only touches vertices in
the orbit class of its starting point. -/
theorem cycle_trace_confined (orb : List Nat) (n : Nat) (a : List Nat)
    (hap : isPerm n a) (horb : orbPreserving orb n a) (z : Nat) :
    ∀ fuel w len q x, w < n →
      (cycle_trace a z fuel w len q).1.getD x 0 ≠ q.getD x 0 →
      (x < n ∧ orb.getD x 0 = orb.getD w 0) := by
  intro fuel
  induction fuel with
  | zero =>
    intro w len q x _ h
    exact absurd rfl h
  | succ fuel ih =>
    intro w len q x hw h
    have hsetcase : (q.set w 1).getD x 0 ≠ q.getD x 0 → x = w := by
      intro hne
      by_cases hxw : w = x
      · exact hxw.symm
      · rw [getD_set_ne q w x 1 0 hxw] at hne
        exact absurd rfl hne
    unfold cycle_trace at h
    split at h
    · exact (hsetcase h).symm ▸ ⟨hw, rfl⟩
    · by_cases hmid : (cycle_trace a z fuel (a.getD w 0) (len + 1) (q.set w 1)).1.getD x 0
          = (q.set w 1).getD x 0
      · rw [hmid] at h
        exact (hsetcase h).symm ▸ ⟨hw, rfl⟩
      · have hrec := ih (a.getD w 0) (len + 1) (q.set w 1) x (hap.2.1 w hw) hmid
        exact ⟨hrec.1, hrec.2.trans (horb w hw)⟩

/-! ### Per-generator counting at one cell: the code-to-spec bridge. -/

/-- After the variable walk of one generator, no variable vertex keeps
mark 2: each is either traced at its own turn (becoming 1) or already
unmarked, and later traces write only 1s. -/
theorem gen_walk_ne_2 (n : Nat) (a : List Nat) :
    ∀ (m : List Nat) (st : List Nat × Nat × Nat), ∀ z ∈ m,
      ((m.foldl
        (fun st z =>
          if st.1.getD z 0 = 2 then
            ((cycle_trace a z (n + 1) z 0 st.1).1,
             (if (cycle_trace a z (n + 1) z 0 st.1).2 = 1 then
                st.2.1 + (cycle_trace a z (n + 1) z 0 st.1).2
              else st.2.1),
             (if 2 ≤ (cycle_trace a z (n + 1) z 0 st.1).2 then
                st.2.2 + (cycle_trace a z (n + 1) z 0 st.1).2
              else st.2.2))
          else st)
        st).1.getD z 0 ≠ 2) := by
  intro m
  induction m with
  | nil =>
    intro st z hz
    exact absurd hz (List.not_mem_nil z)
  | cons z0 ms ih =>
    intro st z hz
    rw [List.foldl_cons]
    rcases List.mem_cons.1 hz with rfl | hz'
    · apply foldl_preserve (fun (st : List Nat × Nat × Nat) => st.1.getD z 0 ≠ 2)
      · intro st' z' _ hne
        by_cases h2 : st'.1.getD z' 0 = 2
        · rw [if_pos h2]
          intro hcon
          exact hne (cycle_trace_no_new_2 a z' _ _ _ _ z hcon)
        · rw [if_neg h2]
          exact hne
      · by_cases h2 : st.1.getD z 0 = 2
        · rw [if_pos h2]
          exact cycle_trace_start_ne_2 a z n 0 st.1
        · rw [if_neg h2]
          exact h2
    · exact ih _ z hz'

/-- One generator's fixed/moved counting, related to the specification:
a positive fixed count exhibits a fixed variable vertex of the cell, a
positive moved count exhibits a moved one; afterwards no variable vertex
is marked 2, and (under the labeler contract) only the cell's orbit class
was touched. -/
theorem gen_count_spec (orb : List Nat) (n : Nat) (a m cell q : List Nat)
    (hap : isPerm n a) (horb : orbPreserving orb n a)
    (hm : ∀ z ∈ m, z < n)
    (hcell : ∀ w ∈ cell, w < n ∧ orb.getD w 0 = orb.getD (cell.headD 0) 0)
    (hq2 : ∀ z ∈ m, q.getD z 0 ≠ 2) :
    (0 < (gen_count n a m cell q).2.1 →
      ∃ z ∈ cell, z ∈ m ∧ a.getD z 0 = z) ∧
    (0 < (gen_count n a m cell q).2.2 →
      ∃ z ∈ cell, z ∈ m ∧ a.getD z 0 ≠ z) ∧
    (∀ z ∈ m, (gen_count n a m cell q).1.getD z 0 ≠ 2) ∧
    (∀ x, (gen_count n a m cell q).1.getD x 0 ≠ q.getD x 0 →
      (x < n ∧ orb.getD x 0 = orb.getD (cell.headD 0) 0)) := by
  have hq1mem : ∀ z ∈ m,
      (cell.foldl (fun q w => q.set w 2) q).getD z 0 = 2 → z ∈ cell := by
    intro z hz h2
    rw [foldl_set_getD_all cell 2 q z] at h2
    by_cases hc : z ∈ cell ∧ z < q.length
    · exact hc.1
    · rw [if_neg hc] at h2
      exact absurd h2 (hq2 z hz)
  have hq1chg : ∀ x,
      (cell.foldl (fun q w => q.set w 2) q).getD x 0 ≠ q.getD x 0 →
      x ∈ cell := by
    intro x hchg
    rw [foldl_set_getD_all cell 2 q x] at hchg
    by_cases hc : x ∈ cell ∧ x < q.length
    · exact hc.1
    · rw [if_neg hc] at hchg
      exact absurd rfl hchg
  have hn1 : ∀ z, z < n → n = (n - 1) + 1 := by omega
  have hmain : (0 < (gen_count n a m cell q).2.1 →
        ∃ z ∈ cell, z ∈ m ∧ a.getD z 0 = z) ∧
      (0 < (gen_count n a m cell q).2.2 →
        ∃ z ∈ cell, z ∈ m ∧ a.getD z 0 ≠ z) ∧
      (∀ z ∈ m, (gen_count n a m cell q).1.getD z 0 = 2 → z ∈ cell) ∧
      (∀ x, (gen_count n a m cell q).1.getD x 0 ≠ q.getD x 0 →
        (x < n ∧ orb.getD x 0 = orb.getD (cell.headD 0) 0)) := by
    unfold gen_count
    apply foldl_preserve (fun (st : List Nat × Nat × Nat) =>
      (0 < st.2.1 → ∃ z ∈ cell, z ∈ m ∧ a.getD z 0 = z) ∧
      (0 < st.2.2 → ∃ z ∈ cell, z ∈ m ∧ a.getD z 0 ≠ z) ∧
      (∀ z ∈ m, st.1.getD z 0 = 2 → z ∈ cell) ∧
      (∀ x, st.1.getD x 0 ≠ q.getD x 0 →
        (x < n ∧ orb.getD x 0 = orb.getD (cell.headD 0) 0)))
    · intro st z hzm hP
      by_cases h2 : st.1.getD z 0 = 2
      · rw [if_pos h2]
        have hzcell : z ∈ cell := hP.2.2.1 z hzm h2
        have hzn : z < n := hm z hzm
        refine ⟨?_, ?_, ?_, ?_⟩
        · intro hpos
          by_cases hlen : (cycle_trace a z (n + 1) z 0 st.1).2 = 1
          · refine ⟨z, hzcell, hzm, ?_⟩
            by_contra hmov
            have := cycle_trace_len_moved a z (n - 1) 0 st.1 hmov
            have hn2 : n - 1 + 2 = n + 1 := by omega
            rw [hn2] at this
            omega
          · rw [if_neg hlen] at hpos
            exact hP.1 hpos
        · intro hpos
          by_cases hlen : 2 ≤ (cycle_trace a z (n + 1) z 0 st.1).2
          · refine ⟨z, hzcell, hzm, ?_⟩
            intro hfix
            have := cycle_trace_len_fixed a z n 0 st.1 hfix
            omega
          · rw [if_neg hlen] at hpos
            exact hP.2.1 hpos
        · intro z' hz' h2'
          exact hP.2.2.1 z' hz'
            (cycle_trace_no_new_2 a z _ _ _ _ z' h2')
        · intro x hchg
          by_cases hmid : (cycle_trace a z (n + 1) z 0 st.1).1.getD x 0
              = st.1.getD x 0
          · rw [hmid] at hchg
            exact hP.2.2.2 x hchg
          · have hconf := cycle_trace_confined orb n a hap horb z
              (n + 1) z 0 st.1 x hzn hmid
            exact ⟨hconf.1, hconf.2.trans (hcell z hzcell).2⟩
      · rw [if_neg h2]
        exact hP
    · refine ⟨by intro h; simp at h, by intro h; simp at h, hq1mem, ?_⟩
      intro x hchg
      have hxc := hq1chg x hchg
      exact hcell x hxc
  refine ⟨hmain.1, hmain.2.1, ?_, hmain.2.2.2⟩
  intro z hz
  unfold gen_count
  exact gen_walk_ne_2 n a m _ z hz

/-- One generator step at an eligible cell when the generator is not good
for the cell: the marks are rewritten by the cycle walks, the no-good
running maximum absorbs the cell length, and nothing else changes. -/
theorem gen_step_no_good (orb : List Nat) (n : Nat) (m cell : List Nat)
    (s : SelState) (a : List Nat)
    (hap : isPerm n a) (horb : orbPreserving orb n a)
    (hm : ∀ z ∈ m, z < n)
    (hcell : ∀ w ∈ cell, w < n ∧ orb.getD w 0 = orb.getD (cell.headD 0) 0)
    (hq2 : ∀ z ∈ m, s.q.getD z 0 ≠ 2)
    (hng : ¬((∃ z ∈ cell, z ∈ m ∧ a.getD z 0 = z) ∧
             (∃ z ∈ cell, z ∈ m ∧ a.getD z 0 ≠ z)))
    (hg : s.have_good = false) :
    gen_step n m cell s a =
      ⟨(gen_count n a m cell s.q).1,
       (if s.max_length ≤ (cell.length : Int)
        then (cell.length : Int) else s.max_length),
       (if s.max_length ≤ (cell.length : Int)
        then cell.headD 0 else s.max_p),
       s.have_good, s.have_first, s.first_eligible⟩ ∧
    (∀ z ∈ m, (gen_count n a m cell s.q).1.getD z 0 ≠ 2) ∧
    (∀ x, (gen_count n a m cell s.q).1.getD x 0 ≠ s.q.getD x 0 →
      x < n ∧ orb.getD x 0 = orb.getD (cell.headD 0) 0) := by
  have hspec := gen_count_spec orb n a m cell s.q hap horb hm hcell hq2
  refine ⟨?_, hspec.2.2.1, hspec.2.2.2⟩
  have hnpos : ¬(0 < (gen_count n a m cell s.q).2.1 ∧
      0 < (gen_count n a m cell s.q).2.2) :=
    fun hc => hng ⟨hspec.1 hc.1, hspec.2.1 hc.2⟩
  unfold gen_step sel_upd1
  rw [if_neg hnpos]
  dsimp only
  by_cases hle : s.max_length ≤ (cell.length : Int)
  · rw [if_pos ⟨hg, hle⟩, if_pos hle, if_pos hle]
  · rw [if_neg (fun hc => hle hc.2), if_neg hle, if_neg hle]

/-- The whole generator loop at an eligible cell when no generator is
good for the cell: the net effect on the selection state is a mark
rewrite confined to the cell's orbit class together with one no-good
running-maximum update (absorbed once the stream is nonempty). -/
theorem cell_gens_fold_no_good (orb : List Nat) (n : Nat) (m cell : List Nat)
    (hm : ∀ z ∈ m, z < n)
    (hcell : ∀ w ∈ cell, w < n ∧ orb.getD w 0 = orb.getD (cell.headD 0) 0) :
    ∀ (gens : List (List Nat)) (st1 : SelState),
    (∀ a ∈ gens, isPerm n a ∧ orbPreserving orb n a) →
    (∀ a ∈ gens, ¬((∃ z ∈ cell, z ∈ m ∧ a.getD z 0 = z) ∧
                   (∃ z ∈ cell, z ∈ m ∧ a.getD z 0 ≠ z))) →
    (∀ z ∈ m, st1.q.getD z 0 ≠ 2) →
    st1.have_good = false →
    ∃ q2 M P,
      gens.foldl (gen_step n m cell) st1 =
        ⟨q2, M, P, st1.have_good, st1.have_first, st1.first_eligible⟩ ∧
      ((M, P) =
        if gens ≠ [] ∧ st1.max_length ≤ (cell.length : Int)
        then ((cell.length : Int), cell.headD 0)
        else (st1.max_length, st1.max_p)) ∧
      (∀ z ∈ m, q2.getD z 0 ≠ 2) ∧
      (∀ x, q2.getD x 0 ≠ st1.q.getD x 0 →
        x < n ∧ orb.getD x 0 = orb.getD (cell.headD 0) 0) := by
  intro gens
  induction gens with
  | nil =>
    intro st1 _ _ hq2 _
    refine ⟨st1.q, st1.max_length, st1.max_p, rfl, ?_, hq2,
      fun x hx => absurd rfl hx⟩
    rw [if_neg (fun hc => hc.1 rfl)]
  | cons a as ih =>
    intro st1 hgens hng hq2 hg
    rw [List.foldl_cons]
    obtain ⟨heq, hq2a, hconfa⟩ := gen_step_no_good orb n m cell st1 a
      (hgens a (List.mem_cons_self a as)).1 (hgens a (List.mem_cons_self a as)).2
      hm hcell hq2 (hng a (List.mem_cons_self a as)) hg
    by_cases hle : st1.max_length ≤ (cell.length : Int)
    · rw [if_pos hle, if_pos hle] at heq
      rw [heq]
      obtain ⟨q2, M, P, heq2, hMP, hq22, hconf2⟩ :=
        ih ⟨(gen_count n a m cell st1.q).1, (cell.length : Int), cell.headD 0,
            st1.have_good, st1.have_first, st1.first_eligible⟩
          (fun a' ha' => hgens a' (List.mem_cons_of_mem a ha'))
          (fun a' ha' => hng a' (List.mem_cons_of_mem a ha'))
          hq2a hg
      dsimp only at heq2 hMP
      refine ⟨q2, M, P, heq2, ?_, hq22, ?_⟩
      · rw [if_pos ⟨List.cons_ne_nil a as, hle⟩]
        rcases eq_or_ne as ([] : List (List Nat)) with rfl | hne
        · rw [if_neg (fun hc => hc.1 rfl)] at hMP
          exact hMP
        · rw [if_pos ⟨hne, le_refl _⟩] at hMP
          exact hMP
      · intro x hx
        by_cases hmid : q2.getD x 0 = (gen_count n a m cell st1.q).1.getD x 0
        · rw [hmid] at hx
          exact hconfa x hx
        · exact hconf2 x hmid
    · rw [if_neg hle, if_neg hle] at heq
      rw [heq]
      obtain ⟨q2, M, P, heq2, hMP, hq22, hconf2⟩ :=
        ih ⟨(gen_count n a m cell st1.q).1, st1.max_length, st1.max_p,
            st1.have_good, st1.have_first, st1.first_eligible⟩
          (fun a' ha' => hgens a' (List.mem_cons_of_mem a ha'))
          (fun a' ha' => hng a' (List.mem_cons_of_mem a ha'))
          hq2a hg
      dsimp only at heq2 hMP
      refine ⟨q2, M, P, heq2, ?_, hq22, ?_⟩
      · rw [if_neg (fun hc => hle hc.2)] at hMP
        rw [if_neg (fun hc => hle hc.2)]
        exact hMP
      · intro x hx
        by_cases hmid : q2.getD x 0 = (gen_count n a m cell st1.q).1.getD x 0
        · rw [hmid] at hx
          exact hconfa x hx
        · exact hconf2 x hmid

/-- Well-formedness of the run decomposition of a sorted list: each cell
contains its head, cell members come from the list and share the head's
orbit value, and distinct cells carry distinct orbit values. -/
theorem cellGroupsF_wf (orb : List Nat) :
    ∀ fuel : Nat, ∀ s : List Nat, s.length ≤ fuel →
    List.Sorted (cellLe orb) s →
    (∀ c ∈ cellGroupsF orb fuel s, c.headD 0 ∈ c ∧
       ∀ w ∈ c, w ∈ s ∧ orb.getD w 0 = orb.getD (c.headD 0) 0) ∧
    List.Pairwise
      (fun c c' => orb.getD (c.headD 0) 0 ≠ orb.getD (c'.headD 0) 0)
      (cellGroupsF orb fuel s) := by
  intro fuel
  induction fuel with
  | zero =>
    intro s hlen _
    have : s = [] := List.length_eq_zero.1 (Nat.le_zero.1 hlen)
    subst this
    simp [cellGroupsF]
  | succ fuel ih =>
    intro s hlen hsort
    match s with
    | [] => simp [cellGroupsF]
    | x :: xs =>
      have hx : ∀ b ∈ xs, cellLe orb x b := (List.sorted_cons.1 hsort).1
      have hxs : List.Sorted (cellLe orb) xs := (List.sorted_cons.1 hsort).2
      have hsplit : xs.takeWhile (fun y => orb.getD y 0 == orb.getD x 0) ++
          xs.dropWhile (fun y => orb.getD y 0 == orb.getD x 0) = xs :=
        List.takeWhile_append_dropWhile _ xs
      have htake : ∀ w ∈ xs.takeWhile (fun y => orb.getD y 0 == orb.getD x 0),
          orb.getD w 0 = orb.getD x 0 := by
        intro w hw
        simpa [beq_iff_eq] using List.mem_takeWhile_imp hw
      have hdrop : ∀ w ∈ xs.dropWhile (fun y => orb.getD y 0 == orb.getD x 0),
          orb.getD w 0 ≠ orb.getD x 0 := dropWhile_orb_ne orb x xs hxs hx
      have hdsort : List.Sorted (cellLe orb)
          (xs.dropWhile (fun y => orb.getD y 0 == orb.getD x 0)) :=
        List.Pairwise.sublist (List.dropWhile_sublist _) hxs
      have hdlen : (xs.dropWhile (fun y => orb.getD y 0 == orb.getD x 0)).length
          ≤ fuel := by
        have h1 := (List.dropWhile_sublist
          (fun y => orb.getD y 0 == orb.getD x 0) (l := xs)).length_le
        have h2 : xs.length ≤ fuel := by
          simpa using Nat.le_of_succ_le_succ (by simpa using hlen)
        omega
      obtain ⟨ihmem, ihpw⟩ :=
        ih (xs.dropWhile (fun y => orb.getD y 0 == orb.getD x 0)) hdlen hdsort
      simp only [cellGroupsF]
      constructor
      · intro c hc
        rcases List.mem_cons.1 hc with rfl | hc'
        · refine ⟨List.mem_cons_self _ _, ?_⟩
          intro w hw
          rcases List.mem_cons.1 hw with rfl | hw'
          · exact ⟨List.mem_cons_self _ _, rfl⟩
          · refine ⟨?_, ?_⟩
            · refine List.mem_cons_of_mem x ?_
              rw [← hsplit]
              exact List.mem_append.2 (Or.inl hw')
            · simpa using htake w hw'
        · obtain ⟨hhd, hmem⟩ := ihmem c hc'
          refine ⟨hhd, ?_⟩
          intro w hw
          obtain ⟨hw1, hw2⟩ := hmem w hw
          refine ⟨?_, hw2⟩
          refine List.mem_cons_of_mem x ?_
          exact (List.dropWhile_sublist _).subset hw1
      · rw [List.pairwise_cons]
        refine ⟨?_, ihpw⟩
        intro c' hc'
        obtain ⟨hhd, hmem⟩ := ihmem c' hc'
        have hd : (c'.headD 0) ∈
            xs.dropWhile (fun y => orb.getD y 0 == orb.getD x 0) :=
          (hmem (c'.headD 0) hhd).1
        have := hdrop (c'.headD 0) hd
        simpa using Ne.symm this

/-- Well-formedness of the orbit-cell list: each cell contains its head,
members are in-range vertices of the head's orbit, and distinct cells are
distinct orbits. -/
theorem orbit_cell_list_wf (orb : List Nat) :
    (∀ c ∈ orbit_cell_list orb, c.headD 0 ∈ c ∧
       ∀ w ∈ c, w < orb.length ∧ orb.getD w 0 = orb.getD (c.headD 0) 0) ∧
    List.Pairwise
      (fun c c' => orb.getD (c.headD 0) 0 ≠ orb.getD (c'.headD 0) 0)
      (orbit_cell_list orb) := by
  obtain ⟨hmem, hpw⟩ := cellGroupsF_wf orb (graph_orbit_cells orb).length
    (graph_orbit_cells orb) (Nat.le_refl _) (orbit_cells_sorted orb)
  refine ⟨?_, hpw⟩
  intro c hc
  obtain ⟨hhd, hm⟩ := hmem c hc
  refine ⟨hhd, ?_⟩
  intro w hw
  obtain ⟨hw1, hw2⟩ := hm w hw
  exact ⟨(mem_orbit_cells orb w).1 hw1, hw2⟩

/-- Specification of the net `!have_good` running-maximum fold: the
result is the seed or the length/head pair of some eligible cell, it
dominates the seed, and it dominates the length of every eligible cell. -/
theorem fallback_fold_spec (e : Nat → Bool) :
    ∀ (cells : List (List Nat)) (s0 : Int × Nat),
    (fallback_fold cells e s0 = s0 ∨
      ∃ c ∈ cells, e (c.headD 0) = true ∧
        fallback_fold cells e s0 = ((c.length : Int), c.headD 0)) ∧
    s0.1 ≤ (fallback_fold cells e s0).1 ∧
    (∀ c ∈ cells, e (c.headD 0) = true →
      (c.length : Int) ≤ (fallback_fold cells e s0).1) := by
  intro cells
  induction cells with
  | nil =>
    intro s0
    refine ⟨Or.inl rfl, le_refl _, ?_⟩
    intro c hc
    exact absurd hc (List.not_mem_nil c)
  | cons c cs ih =>
    intro s0
    have hstep : fallback_fold (c :: cs) e s0 =
        fallback_fold cs e
          (if e (c.headD 0) = true ∧ s0.1 ≤ (c.length : Int)
           then ((c.length : Int), c.headD 0) else s0) := by
      unfold fallback_fold
      rw [List.foldl_cons]
    rw [hstep]
    by_cases hcond : e (c.headD 0) = true ∧ s0.1 ≤ (c.length : Int)
    · rw [if_pos hcond]
      obtain ⟨ih1, ih2, ih3⟩ := ih ((c.length : Int), c.headD 0)
      refine ⟨?_, le_trans hcond.2 ih2, ?_⟩
      · rcases ih1 with h | ⟨c', hc', he', heq'⟩
        · exact Or.inr ⟨c, List.mem_cons_self c cs, hcond.1, h⟩
        · exact Or.inr ⟨c', List.mem_cons_of_mem c hc', he', heq'⟩
      · intro c' hc' he'
        rcases List.mem_cons.1 hc' with rfl | hc''
        · exact ih2
        · exact ih3 c' hc'' he'
    · rw [if_neg hcond]
      obtain ⟨ih1, ih2, ih3⟩ := ih s0
      refine ⟨?_, ih2, ?_⟩
      · rcases ih1 with h | ⟨c', hc', he', heq'⟩
        · exact Or.inl h
        · exact Or.inr ⟨c', List.mem_cons_of_mem c hc', he', heq'⟩
      · intro c' hc' he'
        rcases List.mem_cons.1 hc' with rfl | hc''
        · rcases Int.lt_or_le s0.1 (c'.length : Int) with hlt | hge
          · exact absurd ⟨he', le_of_lt hlt⟩ hcond
          · exact le_trans hge ih2
        · exact ih3 c' hc'' he'

/-- The whole cell scan of `orbit_select` when no eligible cell has a
good generator: `have_good` stays down, the first eligible head is
recorded by a `find?` over the heads, and the running maximum performs
exactly the net `!have_good` fallback fold (no update at all when the
generator stream is empty). -/
theorem sel_fold_no_good (orb : List Nat) (n : Nat) (gens : List (List Nat))
    (m : List Nat) (q0 : List Nat)
    (hgens : ∀ a ∈ gens, isPerm n a ∧ orbPreserving orb n a)
    (hm : ∀ z ∈ m, z < n) :
    ∀ (cells : List (List Nat)) (st : SelState),
    (∀ c ∈ cells, ∀ w ∈ c, w < n ∧ orb.getD w 0 = orb.getD (c.headD 0) 0) →
    List.Pairwise
      (fun c c' => orb.getD (c.headD 0) 0 ≠ orb.getD (c'.headD 0) 0) cells →
    (∀ c ∈ cells, 0 < q0.getD (c.headD 0) 0 → ∀ a ∈ gens,
      ¬((∃ z ∈ c, z ∈ m ∧ a.getD z 0 = z) ∧
        (∃ z ∈ c, z ∈ m ∧ a.getD z 0 ≠ z))) →
    st.have_good = false →
    (∀ z ∈ m, st.q.getD z 0 ≠ 2) →
    (∀ c ∈ cells, st.q.getD (c.headD 0) 0 = q0.getD (c.headD 0) 0) →
    (cells.foldl (process_cell n gens m) st).have_good = false ∧
    ((cells.foldl (process_cell n gens m) st).have_first,
     (cells.foldl (process_cell n gens m) st).first_eligible) =
      (if st.have_first = true then (st.have_first, st.first_eligible)
       else
         match (cells.map (fun c => c.headD 0)).find?
             (fun h => decide (0 < q0.getD h 0)) with
         | some h => (true, h)
         | none => (st.have_first, st.first_eligible)) ∧
    ((cells.foldl (process_cell n gens m) st).max_length,
     (cells.foldl (process_cell n gens m) st).max_p) =
      (if gens = [] then (st.max_length, st.max_p)
       else fallback_fold cells (fun h => decide (0 < q0.getD h 0))
         (st.max_length, st.max_p)) := by
  intro cells
  induction cells with
  | nil =>
    intro st _ _ _ hg hq2 _
    refine ⟨hg, ?_, ?_⟩
    · simp only [List.foldl_nil, List.map_nil, List.find?_nil]
      by_cases hf : st.have_first = true
      · rw [if_pos hf]
      · rw [if_neg hf]
    · simp only [List.foldl_nil]
      have hff : fallback_fold [] (fun h => decide (0 < q0.getD h 0))
          (st.max_length, st.max_p) = (st.max_length, st.max_p) := rfl
      rw [hff, ite_self]
  | cons c cs ih =>
    intro st hcw hpw hng hg hq2 hheads
    rw [List.foldl_cons]
    have hhead : st.q.getD (c.headD 0) 0 = q0.getD (c.headD 0) 0 :=
      hheads c (List.mem_cons_self c cs)
    have hcw' : ∀ c' ∈ cs, ∀ w ∈ c',
        w < n ∧ orb.getD w 0 = orb.getD (c'.headD 0) 0 :=
      fun c' hc' => hcw c' (List.mem_cons_of_mem c hc')
    have hpw' := (List.pairwise_cons.1 hpw).2
    have hpwc := (List.pairwise_cons.1 hpw).1
    have hng' : ∀ c' ∈ cs, 0 < q0.getD (c'.headD 0) 0 → ∀ a ∈ gens,
        ¬((∃ z ∈ c', z ∈ m ∧ a.getD z 0 = z) ∧
          (∃ z ∈ c', z ∈ m ∧ a.getD z 0 ≠ z)) :=
      fun c' hc' => hng c' (List.mem_cons_of_mem c hc')
    by_cases hel : 0 < st.q.getD (c.headD 0) 0
    · have hel0 : 0 < q0.getD (c.headD 0) 0 := hhead ▸ hel
      have hcellc := hcw c (List.mem_cons_self c cs)
      have hngc := hng c (List.mem_cons_self c cs) hel0
      by_cases hf : st.have_first = true
      · have hpc : process_cell n gens m st c = gens.foldl (gen_step n m c) st := by
          unfold process_cell
          rw [if_pos hel, if_pos hf]
        obtain ⟨q2, M, P, heqf, hMP, hq22, hconf⟩ :=
          cell_gens_fold_no_good orb n m c hm hcellc gens st hgens hngc hq2 hg
        rw [hpc, heqf]
        have hheads' : ∀ c' ∈ cs,
            (⟨q2, M, P, st.have_good, st.have_first, st.first_eligible⟩ :
              SelState).q.getD (c'.headD 0) 0 = q0.getD (c'.headD 0) 0 := by
          intro c' hc'
          show q2.getD (c'.headD 0) 0 = _
          by_cases hch : q2.getD (c'.headD 0) 0 = st.q.getD (c'.headD 0) 0
          · rw [hch]
            exact hheads c' (List.mem_cons_of_mem c hc')
          · exact absurd (hconf _ hch).2.symm (hpwc c' hc')
        obtain ⟨ihg, ihfe, ihmax⟩ :=
          ih ⟨q2, M, P, st.have_good, st.have_first, st.first_eligible⟩
            hcw' hpw' hng' hg hq22 hheads'
        dsimp only at ihfe ihmax
        refine ⟨ihg, ?_, ?_⟩
        · rw [ihfe, if_pos hf, if_pos hf]
        · rw [ihmax]
          by_cases hge : gens = []
          · rw [if_pos hge, if_pos hge]
            rw [if_neg (fun hc => hc.1 hge)] at hMP
            exact hMP
          · rw [if_neg hge, if_neg hge]
            have hstep : fallback_fold (c :: cs)
                (fun h => decide (0 < q0.getD h 0)) (st.max_length, st.max_p) =
                fallback_fold cs (fun h => decide (0 < q0.getD h 0))
                  (if decide (0 < q0.getD (c.headD 0) 0) = true ∧
                      st.max_length ≤ (c.length : Int)
                   then ((c.length : Int), c.headD 0)
                   else (st.max_length, st.max_p)) := by
              unfold fallback_fold
              rw [List.foldl_cons]
            rw [hstep]
            congr 1
            by_cases hle : st.max_length ≤ (c.length : Int)
            · rw [if_pos ⟨decide_eq_true hel0, hle⟩]
              rw [if_pos ⟨hge, hle⟩] at hMP
              exact hMP
            · rw [if_neg (fun hc => hle hc.2)]
              rw [if_neg (fun hc => hle hc.2)] at hMP
              exact hMP
      · have hpc : process_cell n gens m st c = gens.foldl (gen_step n m c)
            { st with have_first := true, first_eligible := c.headD 0 } := by
          unfold process_cell
          rw [if_pos hel, if_neg hf]
        obtain ⟨q2, M, P, heqf, hMP, hq22, hconf⟩ :=
          cell_gens_fold_no_good orb n m c hm hcellc gens
            { st with have_first := true, first_eligible := c.headD 0 }
            hgens hngc hq2 hg
        dsimp only at heqf hMP hconf
        rw [hpc, heqf]
        have hheads' : ∀ c' ∈ cs,
            (⟨q2, M, P, st.have_good, true, c.headD 0⟩ :
              SelState).q.getD (c'.headD 0) 0 = q0.getD (c'.headD 0) 0 := by
          intro c' hc'
          show q2.getD (c'.headD 0) 0 = _
          by_cases hch : q2.getD (c'.headD 0) 0 = st.q.getD (c'.headD 0) 0
          · rw [hch]
            exact hheads c' (List.mem_cons_of_mem c hc')
          · exact absurd (hconf _ hch).2.symm (hpwc c' hc')
        obtain ⟨ihg, ihfe, ihmax⟩ :=
          ih ⟨q2, M, P, st.have_good, true, c.headD 0⟩
            hcw' hpw' hng' hg hq22 hheads'
        dsimp only at ihfe ihmax
        rw [if_pos rfl] at ihfe
        refine ⟨ihg, ?_, ?_⟩
        · have hfind : List.find? (fun h => decide (0 < q0.getD h 0))
              (c.headD 0 :: List.map (fun c => c.headD 0) cs) =
              some (c.headD 0) :=
            List.find?_cons_of_pos _ (decide_eq_true hel0)
          rw [ihfe, if_neg hf, List.map_cons, hfind]
        · rw [ihmax]
          by_cases hge : gens = []
          · rw [if_pos hge, if_pos hge]
            rw [if_neg (fun hc => hc.1 hge)] at hMP
            exact hMP
          · rw [if_neg hge, if_neg hge]
            have hstep : fallback_fold (c :: cs)
                (fun h => decide (0 < q0.getD h 0)) (st.max_length, st.max_p) =
                fallback_fold cs (fun h => decide (0 < q0.getD h 0))
                  (if decide (0 < q0.getD (c.headD 0) 0) = true ∧
                      st.max_length ≤ (c.length : Int)
                   then ((c.length : Int), c.headD 0)
                   else (st.max_length, st.max_p)) := by
              unfold fallback_fold
              rw [List.foldl_cons]
            rw [hstep]
            congr 1
            by_cases hle : st.max_length ≤ (c.length : Int)
            · rw [if_pos ⟨decide_eq_true hel0, hle⟩]
              rw [if_pos ⟨hge, hle⟩] at hMP
              exact hMP
            · rw [if_neg (fun hc => hle hc.2)]
              rw [if_neg (fun hc => hle hc.2)] at hMP
              exact hMP
    · have hel0 : ¬ 0 < q0.getD (c.headD 0) 0 := fun hc => hel (hhead ▸ hc)
      have hpc : process_cell n gens m st c = st := by
        unfold process_cell
        rw [if_neg hel]
      rw [hpc]
      obtain ⟨ihg, ihfe, ihmax⟩ := ih st hcw' hpw' hng' hg hq2
        (fun c' hc' => hheads c' (List.mem_cons_of_mem c hc'))
      refine ⟨ihg, ?_, ?_⟩
      · have hfind : List.find? (fun h => decide (0 < q0.getD h 0))
            (c.headD 0 :: List.map (fun c => c.headD 0) cs) =
            List.find? (fun h => decide (0 < q0.getD h 0))
              (List.map (fun c => c.headD 0) cs) :=
          List.find?_cons_of_neg _ (fun hc => hel0 (of_decide_eq_true hc))
        rw [ihfe, List.map_cons, hfind]
      · rw [ihmax]
        by_cases hge : gens = []
        · rw [if_pos hge, if_pos hge]
        · rw [if_neg hge, if_neg hge]
          have hstep : fallback_fold (c :: cs)
              (fun h => decide (0 < q0.getD h 0)) (st.max_length, st.max_p) =
              fallback_fold cs (fun h => decide (0 < q0.getD h 0))
                (if decide (0 < q0.getD (c.headD 0) 0) = true ∧
                    st.max_length ≤ (c.length : Int)
                 then ((c.length : Int), c.headD 0)
                 else (st.max_length, st.max_p)) := by
            unfold fallback_fold
            rw [List.foldl_cons]
          rw [hstep, if_neg (fun hc => hel0 (of_decide_eq_true hc.1))]

/-- Claim C3 (amended): when no good orbit exists (under the labeler
contract that generators are orbit-preserving permutations), the vertex
returned by `orbit_select` is not the globally lowest-indexed unused
variable vertex: with at least one generator present, the net effect of
the `j-i >= max_length` update makes the call return the head of the
last-scanned eligible orbit cell of maximal length whenever that length
reaches 2, and only otherwise the head of the first-scanned eligible
cell; with no generators the running maximum is never touched and the
first-scanned eligible head is returned.  Heads are the orbit minima,
and a head is eligible exactly when it is an unused variable vertex. -/
theorem claim_c3_amended (orb : List Nat) (n : Nat) (gens : List (List Nat))
    (m f : List Nat) (hn : orb.length = n)
    (hgens : ∀ a ∈ gens, isPerm n a ∧ orbPreserving orb n a)
    (hm : ∀ z ∈ m, z < n)
    (hng : ¬ good_orbit_exists orb gens m f) :
    (orbit_select orb gens n m f none =
      (if gens ≠ [] ∧ (2 : Int) ≤ (fallback_fold (orbit_cell_list orb)
            (fun h => decide (0 < (sel_q_init n m f).getD h 0)) (-1, 0)).1
       then some (fallback_fold (orbit_cell_list orb)
            (fun h => decide (0 < (sel_q_init n m f).getD h 0)) (-1, 0)).2
       else ((orbit_cell_list orb).map (fun c => c.headD 0)).find?
            (fun h => decide (0 < (sel_q_init n m f).getD h 0)))) ∧
    (∀ h ∈ cgHeads orb (graph_orbit_cells orb),
      h < n ∧ ∀ w, w < n → orb.getD w 0 = orb.getD h 0 → h ≤ w) ∧
    (∀ h, h < n → ((0 < (sel_q_init n m f).getD h 0) ↔ (h ∈ m ∧ h ∉ f))) ∧
    (∀ c ∈ orbit_cell_list orb,
      decide (0 < (sel_q_init n m f).getD (c.headD 0) 0) = true →
      (c.length : Int) ≤ (fallback_fold (orbit_cell_list orb)
        (fun h => decide (0 < (sel_q_init n m f).getD h 0)) (-1, 0)).1) ∧
    ((2 : Int) ≤ (fallback_fold (orbit_cell_list orb)
        (fun h => decide (0 < (sel_q_init n m f).getD h 0)) (-1, 0)).1 →
      ∃ c ∈ orbit_cell_list orb,
        decide (0 < (sel_q_init n m f).getD (c.headD 0) 0) = true ∧
        fallback_fold (orbit_cell_list orb)
          (fun h => decide (0 < (sel_q_init n m f).getD h 0)) (-1, 0) =
          ((c.length : Int), c.headD 0)) := by
  have hq0 : ∀ z ∈ m, (sel_q_init n m f).getD z 0 ≠ 2 := by
    intro z hz
    rw [sel_q_init_getD n m f z (hm z hz)]
    by_cases hfz : z ∈ f
    · rw [if_pos hfz]
      omega
    · rw [if_neg hfz]
      by_cases hmz : z ∈ m
      · rw [if_pos hmz]
        omega
      · rw [if_neg hmz]
        omega
  have hcw := (orbit_cell_list_wf orb).1
  have hpw := (orbit_cell_list_wf orb).2
  have hcw' : ∀ c ∈ orbit_cell_list orb, ∀ w ∈ c,
      w < n ∧ orb.getD w 0 = orb.getD (c.headD 0) 0 := by
    intro c hc w hw
    obtain ⟨h1, h2⟩ := (hcw c hc).2 w hw
    exact ⟨hn ▸ h1, h2⟩
  have hngcells : ∀ c ∈ orbit_cell_list orb,
      0 < (sel_q_init n m f).getD (c.headD 0) 0 → ∀ a ∈ gens,
      ¬((∃ z ∈ c, z ∈ m ∧ a.getD z 0 = z) ∧
        (∃ z ∈ c, z ∈ m ∧ a.getD z 0 ≠ z)) := by
    intro c hc helc a ha hpair
    apply hng
    have hhm : c.headD 0 ∈ c := (hcw c hc).1
    have hhn : c.headD 0 < n := (hcw' c hc _ hhm).1
    obtain ⟨hum, huf⟩ := (sel_q_init_pos_iff n m f (c.headD 0) hhn).1 helc
    exact ⟨c, hc, ⟨c.headD 0, hhm, hum, huf⟩, a, ha, hpair.1, hpair.2⟩
  obtain ⟨hsg, hsfe, hsmax⟩ := sel_fold_no_good orb n gens m (sel_q_init n m f)
    hgens hm (orbit_cell_list orb)
    ⟨sel_q_init n m f, -1, 0, false, false, 0⟩
    hcw' hpw hngcells rfl hq0 (fun c hc => rfl)
  dsimp only at hsfe hsmax
  rw [if_neg (fun hcon => Bool.false_ne_true hcon)] at hsfe
  obtain ⟨hfb1, hfb2, hfb3⟩ := fallback_fold_spec
    (fun h => decide (0 < (sel_q_init n m f).getD h 0))
    (orbit_cell_list orb) (-1, 0)
  refine ⟨?_, ?_, ?_, hfb3, ?_⟩
  · unfold orbit_select
    simp only
    cases hfind : ((orbit_cell_list orb).map (fun c => c.headD 0)).find?
        (fun h => decide (0 < (sel_q_init n m f).getD h 0)) with
    | none =>
      rw [hfind] at hsfe
      have hf1 : ((orbit_cell_list orb).foldl (process_cell n gens m)
          ⟨sel_q_init n m f, -1, 0, false, false, 0⟩).have_first = false :=
        congrArg Prod.fst hsfe
      rw [if_neg (fun hcon => Bool.false_ne_true (hf1.symm.trans hcon))]
      have hpredall : ∀ c ∈ orbit_cell_list orb,
          ¬((fun h => decide (0 < (sel_q_init n m f).getD h 0))
            (c.headD 0) = true) := by
        intro c hc
        exact List.find?_eq_none.1 hfind (c.headD 0)
          (List.mem_map_of_mem (fun c => c.headD 0) hc)
      have hfb : fallback_fold (orbit_cell_list orb)
          (fun h => decide (0 < (sel_q_init n m f).getD h 0)) (-1, 0) =
          (-1, 0) := by
        rcases hfb1 with h | ⟨c, hc, he, _⟩
        · exact h
        · exact absurd he (hpredall c hc)
      rw [if_neg (fun hcon => by
        rw [hfb] at hcon
        exact absurd hcon.2 (by decide))]
    | some h =>
      rw [hfind] at hsfe
      have hf1 : ((orbit_cell_list orb).foldl (process_cell n gens m)
          ⟨sel_q_init n m f, -1, 0, false, false, 0⟩).have_first = true :=
        congrArg Prod.fst hsfe
      have hfe1 : ((orbit_cell_list orb).foldl (process_cell n gens m)
          ⟨sel_q_init n m f, -1, 0, false, false, 0⟩).first_eligible = h :=
        congrArg Prod.snd hsfe
      rw [if_pos hf1, hfe1]
      by_cases hge : gens = []
      · rw [if_pos hge] at hsmax
        have hml : ((orbit_cell_list orb).foldl (process_cell n gens m)
            ⟨sel_q_init n m f, -1, 0, false, false, 0⟩).max_length =
            (-1 : Int) := congrArg Prod.fst hsmax
        rw [if_neg (fun hcon => absurd (hml ▸ hcon) (by decide)),
          if_neg (fun hcon => hcon.1 hge)]
      · rw [if_neg hge] at hsmax
        have hml : ((orbit_cell_list orb).foldl (process_cell n gens m)
            ⟨sel_q_init n m f, -1, 0, false, false, 0⟩).max_length =
            (fallback_fold (orbit_cell_list orb)
              (fun h => decide (0 < (sel_q_init n m f).getD h 0)) (-1, 0)).1 :=
          congrArg Prod.fst hsmax
        have hmp : ((orbit_cell_list orb).foldl (process_cell n gens m)
            ⟨sel_q_init n m f, -1, 0, false, false, 0⟩).max_p =
            (fallback_fold (orbit_cell_list orb)
              (fun h => decide (0 < (sel_q_init n m f).getD h 0)) (-1, 0)).2 :=
          congrArg Prod.snd hsmax
        by_cases h2 : (2 : Int) ≤ (fallback_fold (orbit_cell_list orb)
            (fun h => decide (0 < (sel_q_init n m f).getD h 0)) (-1, 0)).1
        · rw [if_pos (by rw [hml]; exact h2), if_pos ⟨hge, h2⟩, hmp]
        · rw [if_neg (fun hcon => h2 (hml ▸ hcon)),
            if_neg (fun hcon => h2 hcon.2)]
  · intro h hh
    have := (cgHeads_min orb h).1 hh
    rw [hn] at this
    exact this
  · intro h hh
    exact sel_q_init_pos_iff n m f h hh
  · intro h2
    rcases hfb1 with heq | ⟨c, hc, he, heq⟩
    · rw [heq] at h2
      exact absurd h2 (by decide)
    · exact ⟨c, hc, he, heq⟩

/-- Witness for the amended claim C3 at a concrete instance: orbits
`{0}` and `{1, 2}` with the single generator `(1 2)`, all three vertices
variable, empty prefix.  No orbit is good; the fallback returns the head
`1` of the longer orbit, not the lowest unused vertex `0`. -/
theorem claim_c3_witness :
    (([0, 1, 1] : List Nat).length = 3 ∧
     (∀ a ∈ [[0, 2, 1]], isPerm 3 a ∧ orbPreserving [0, 1, 1] 3 a) ∧
     (∀ z ∈ ([0, 1, 2] : List Nat), z < 3) ∧
     ¬ good_orbit_exists [0, 1, 1] [[0, 2, 1]] [0, 1, 2] []) ∧
    orbit_select [0, 1, 1] [[0, 2, 1]] 3 [0, 1, 2] [] none = some 1 := by
  refine ⟨⟨rfl, by decide, by decide, by decide⟩, ?_⟩
  rw [(claim_c3_amended [0, 1, 1] 3 [[0, 2, 1]] [0, 1, 2] [] rfl
    (by decide) (by decide) (by decide)).1]
  decide

end Reduce
